import Mathlib

/-!
Verification of the site-abstraction and scraping engine of the `oj` client
library (sources: `onlinejudge/implementation/utils.py`,
`onlinejudge/service/atcoder.py`, `onlinejudge/yukicoder.py`).

Strings are modelled as `List Char` (`Str`), matching Python's sequence-of-code-
points semantics.  Fallible Python code (exceptions) is modelled with `Except`.
The HTTP layer is abstracted: each network-using operation takes an explicit
environment recording the observable parts of the responses it would receive.
-/

set_option maxHeartbeats 1000000

abbrev Str := List Char

/-! ## Basic string utilities (Python `str` operations) -/

/-- Python `s.startswith(pre)`. -/
def startsWithStr : Str → Str → Bool
  | _, [] => true
  | [], _ :: _ => false
  | c :: cs, p :: ps => c = p && startsWithStr cs ps

/-- Python `pat in hay` (substring containment). -/
def containsStr (hay pat : Str) : Bool :=
  match hay with
  | [] => startsWithStr [] pat
  | c :: t => startsWithStr (c :: t) pat || containsStr t pat

/-- Python `s.endswith(suf)`. -/
def endsWithStr (s suf : Str) : Bool :=
  startsWithStr s.reverse suf.reverse

/-- ASCII lower-casing of one character (enough for the ASCII patterns the code
searches for; Python's `str.lower` extends this to all of Unicode). -/
def lowerCh (c : Char) : Char := c.toLower

/-- Python `s.lower()` restricted to ASCII. -/
def lowerStr (s : Str) : Str := s.map lowerCh

/-- `re.search(pat, name, re.IGNORECASE)` for a literal all-lowercase ASCII
pattern `pat`: case-insensitive substring search. -/
def searchCI (name pat : Str) : Bool := containsStr (lowerStr name) pat

/-! ## Logging model

The code reports through a logger; we record the events that the claims talk
about as values.  Events carry their formatted message. -/

inductive LogEvent where
  | info (msg : Str)
  | status (msg : Str)
  | debug (msg : Str)
  | warning (msg : Str)
  | error (msg : Str)
  | success (msg : Str)
  | failure (msg : Str)
deriving DecidableEq, Repr

/-! ## `utils.SampleZipper` (the Sample Pairing Engine) -/

/-- State of `utils.SampleZipper`: the collected pairs (`self.data`), the
pending block (`self.dangling`), and the warnings emitted so far. -/
structure SampleZipper where
  data : List ((Str × Str) × (Str × Str))
  dangling : Option (Str × Str)
  log : List LogEvent
deriving DecidableEq, Repr

/-- `SampleZipper.__init__`. -/
def SampleZipper.new : SampleZipper := ⟨[], none, []⟩

/-- `SampleZipper.add(self, s, name='')`.  Mirrors the source: when no block is
dangling the incoming block becomes dangling (warning if its name looks like an
output); otherwise the dangling block is paired with the incoming one (warning
if the incoming name looks like an input). -/
def SampleZipper.add (z : SampleZipper) (s name : Str) : SampleZipper :=
  match z.dangling with
  | none =>
    let warn :=
      if searchCI name "output".toList || containsStr name "出力".toList then
        [LogEvent.warning ("strange name for input string: ".toList ++ name)]
      else []
    { z with dangling := some (s, name), log := z.log ++ warn }
  | some d =>
    let warn :=
      if searchCI name "input".toList || containsStr name "入力".toList then
        [LogEvent.warning ("strange name for output string: ".toList ++ name)]
      else []
    { data := z.data ++ [(d, (s, name))], dangling := none, log := z.log ++ warn }

/-- `SampleZipper.get(self)`: returns `self.data`; additionally an error event
is logged when a block is still dangling. -/
def SampleZipper.get (z : SampleZipper) :
    List ((Str × Str) × (Str × Str)) × List LogEvent :=
  match z.dangling with
  | some d => (z.data, [LogEvent.error ("dangling sample string: ".toList ++ d.2)])
  | none => (z.data, [])

/-- Feeding a sequence of `(text, name)` blocks to a fresh `SampleZipper` via
`add`, in order. -/
def SampleZipper.run (bs : List (Str × Str)) : SampleZipper :=
  bs.foldl (fun z b => z.add b.1 b.2) SampleZipper.new

/-! ### Characterization of `SampleZipper.run` -/

/-- Consecutive pairing of a list: `[b₁, b₂, b₃, b₄, …] ↦ [(b₁,b₂), (b₃,b₄), …]`,
dropping a trailing odd element. -/
def chunkPairs : List α → List (α × α)
  | a :: b :: rest => (a, b) :: chunkPairs rest
  | _ => []

/-- The trailing odd element of a list, if the length is odd. -/
def oddLast : List α → Option α
  | [a] => some a
  | _ :: _ :: rest => oddLast rest
  | [] => none

/-- Erase the advisory names from an emitted pair, keeping only the texts. -/
def erasePairNames (p : (Str × Str) × (Str × Str)) : Str × Str := (p.1.1, p.2.1)

/-! ## Decimal numbers (Python `int(...)` and `'{}'.format(...)`) -/

/-- The character for a decimal digit. -/
def digitCh : Nat → Char
  | 0 => '0' | 1 => '1' | 2 => '2' | 3 => '3' | 4 => '4'
  | 5 => '5' | 6 => '6' | 7 => '7' | 8 => '8' | _ => '9'

/-- ASCII decimal digit test (`[0-9]`), on code points. -/
def isDigitCh (c : Char) : Bool := 48 ≤ c.toNat && c.toNat ≤ 57

/-- Least-significant-first decimal digits of `n`, with explicit fuel so the
function is structural (any fuel `≥ n` gives the digits of `n`). -/
def decDigitsAux : Nat → Nat → List Nat
  | 0, _ => []
  | fuel + 1, n => if n = 0 then [] else n % 10 :: decDigitsAux fuel (n / 10)

/-- `'{}'.format(n)` for a natural number. -/
def natToDec (n : Nat) : Str :=
  if n = 0 then ['0'] else ((decDigitsAux n n).reverse.map digitCh)

/-- `'{}'.format(i)` for a Python `int`. -/
def intToDec : Int → Str
  | .ofNat n => natToDec n
  | .negSucc n => '-' :: natToDec (n + 1)

/-- Numeric value of a most-significant-first digit string (what `int` computes
on a string of digits, leading zeros allowed). -/
def decVal (s : Str) : Nat := s.foldl (fun a c => 10 * a + (c.toNat - 48)) 0

/-- Numeric value of a most-significant-first list of digit values. -/
def valMS (l : List Nat) : Nat := l.foldl (fun a d => 10 * a + d) 0

/-- Numeric value of a least-significant-first list of digit values. -/
def valLS : List Nat → Nat
  | [] => 0
  | d :: ds => d + 10 * valLS ds

/-- Python `int(s)`: optional surrounding whitespace, optional sign, then a
nonempty run of decimal digits; anything else raises `ValueError` (modelled as
`none`).  PEP 515 underscore grouping and non-ASCII digits are not modelled. -/
def pyInt (s : Str) : Option Int :=
  let t := ((s.dropWhile Char.isWhitespace).reverse.dropWhile Char.isWhitespace).reverse
  match t with
  | [] => none
  | c :: ds =>
    if c = '-' then
      if ds ≠ [] ∧ ds.all isDigitCh then some (-(decVal ds : Int)) else none
    else if c = '+' then
      if ds ≠ [] ∧ ds.all isDigitCh then some ((decVal ds : Int)) else none
    else
      if (c :: ds).all isDigitCh then some ((decVal (c :: ds) : Int)) else none

/-! ## Association lists (Python `dict`), keyed data -/

/-- `d[k] = v` on a Python `dict` modelled as an association list: replace the
value at the first occurrence of the key (the key keeps its insertion
position), or append a new binding at the end. -/
def assocSet [DecidableEq κ] : List (κ × β) → κ → β → List (κ × β)
  | [], n, v => [(n, v)]
  | (k, w) :: t, n, v => if k = n then (k, v) :: t else (k, w) :: assocSet t n v

/-- `d[k]`/`d.get(k)` on a Python `dict` modelled as an association list. -/
def assocLookup [DecidableEq κ] : List (κ × β) → κ → Option β
  | [], _ => none
  | (k, v) :: t, n => if k = n then some v else assocLookup t n

/-! ## `utils.FormSender` -/

/-- An `<input>` element of a parsed form: its `name` and `value` attributes,
each possibly absent. -/
structure InputTag where
  name : Option Str
  value : Option Str
deriving DecidableEq, Repr

/-- `FormSender.__init__` payload extraction: for each `input` element, if both
`input['name']` and `input['value']` are present (else `KeyError`, caught and
ignored) and truthy (nonempty), store the binding in `self.payload`. -/
def FormSender.initPayload (inputs : List InputTag) : List (Str × Str) :=
  inputs.foldl
    (fun payload inp =>
      match inp.name, inp.value with
      | some n, some v => if n ≠ [] ∧ v ≠ [] then assocSet payload n v else payload
      | _, _ => payload)
    []

/-- An input element qualifies for key `k` when its `name` attribute is present
and equal to the nonempty `k` and its `value` attribute is present and
nonempty. -/
def Qualifies (inp : InputTag) (k : Str) : Prop :=
  inp.name = some k ∧ k ≠ [] ∧ inp.value ≠ none ∧ inp.value ≠ some []

instance (inp : InputTag) (k : Str) : Decidable (Qualifies inp k) := by
  unfold Qualifies
  infer_instance

/-! ## POSIX paths (`posixpath.split`, `os.path.dirname`, `os.path.basename`) -/

/-- `posixpath.split(p)`: split at the last `'/'`; the head keeps no trailing
slashes unless it consists solely of slashes. -/
def posixSplit (p : Str) : Str × Str :=
  let tail := (p.reverse.takeWhile (· ≠ '/')).reverse
  let head := (p.reverse.dropWhile (· ≠ '/')).reverse
  let head' :=
    if head ≠ [] ∧ ¬ (head.all (· = '/')) then
      (head.reverse.dropWhile (· = '/')).reverse
    else head
  (head', tail)

/-- `os.path.dirname(p)` on POSIX. -/
def dirnameStr (p : Str) : Str := (posixSplit p).1

/-- `os.path.basename(p)` on POSIX. -/
def basenameStr (p : Str) : Str := (posixSplit p).2

/-! ## Errors raised by the modelled Python code -/

inductive PyErr where
  | httpError          -- `requests.HTTPError` (raised bare)
  | keyError
  | assertionError
  | submissionError    -- `onlinejudge.type.SubmissionError`
  | notImplementedError
  | runtimeError
deriving DecidableEq, Repr

/-! ## The cookie-store filesystem and `utils.session` -/

/-- A saved cookie file: the serialized cookies and the permission bits. -/
structure CookieFile where
  cookies : List (Str × Str)
  perm : Nat
deriving DecidableEq, Repr

/-- The filesystem visible to `utils.session`: cookie files by path, and the
set of directories that exist. -/
structure FileSystem where
  files : List (Str × CookieFile)
  dirs : List Str
deriving DecidableEq, Repr

/-- A `requests.Session`, reduced to the cookie jar it owns. -/
structure PySession where
  cookies : List (Str × Str)
deriving DecidableEq, Repr

def FileSystem.lookupFile (fs : FileSystem) (p : Str) : Option CookieFile :=
  assocLookup fs.files p

/-- `os.makedirs(d, exist_ok=True)` (the intermediate ancestors are subsumed:
the model keeps a flat set of existing directory paths). -/
def FileSystem.makedirs (fs : FileSystem) (d : Str) : FileSystem :=
  { fs with dirs := if d ∈ fs.dirs then fs.dirs else fs.dirs ++ [d] }

/-- `LWPCookieJar.save()`: create or truncate the file with the serialized
cookies.  A newly created file gets the default permission bits `0o644`; an
overwritten file keeps its permission bits. -/
def FileSystem.writeFile (fs : FileSystem) (p : Str) (c : List (Str × Str)) :
    FileSystem :=
  let newPerm := match fs.lookupFile p with | some f => f.perm | none => 0o644
  { fs with files := assocSet fs.files p ⟨c, newPerm⟩ }

/-- The change `os.chmod(p, m)` applies to a single directory entry. -/
def chmodEntry (p : Str) (m : Nat) : Str × CookieFile → Str × CookieFile
  | (k, f) => if k = p then (k, ⟨f.cookies, m⟩) else (k, f)

/-- `os.chmod(p, m)`. -/
def FileSystem.chmod (fs : FileSystem) (p : Str) (m : Nat) : FileSystem :=
  { fs with files := fs.files.map (chmodEntry p m) }

/-- The cookies `utils.session` starts from: deserialized from the cookiejar
path when the file exists, empty otherwise. -/
def loadedCookies (fs : FileSystem) (p : Str) : List (Str × Str) :=
  match fs.lookupFile p with
  | some f => f.cookies
  | none => []

/-- The `utils.session` context manager, applied to a `body` (the `with`
block).  The generator `yield`s once with no `try/finally`: when the body
raises, the exception is thrown into the generator at the `yield` point and
propagates, so the code after the `yield` (save, `makedirs`, `chmod`) does not
run.  On normal completion the cookies are saved to the path (creating the
parent directory when `os.path.dirname` is nonempty) and the file mode is set
to `0o600`. -/
def sessionScope (fs : FileSystem) (cookiejar : Str)
    (body : PySession → Except PyErr (α × PySession)) :
    Except PyErr α × FileSystem :=
  let s : PySession := ⟨loadedCookies fs cookiejar⟩
  match body s with
  | .error e => (.error e, fs)
  | .ok (a, s') =>
    let fs1 :=
      if dirnameStr cookiejar ≠ [] then fs.makedirs (dirnameStr cookiejar) else fs
    let fs2 := fs1.writeFile cookiejar s'.cookies
    let fs3 := fs2.chmod cookiejar 0o600
    (.ok a, fs3)

/-! ## `utils.describe_status_code` and `utils.download` -/

/-- The entries of `http.client.responses` relevant here (a lookup in the full
stdlib table; a status code outside the table raises `KeyError`). -/
def httpResponses : List (Nat × Str) :=
  [(200, "OK".toList), (301, "Moved Permanently".toList),
   (302, "Found".toList), (303, "See Other".toList),
   (400, "Bad Request".toList), (401, "Unauthorized".toList),
   (403, "Forbidden".toList), (404, "Not Found".toList),
   (500, "Internal Server Error".toList), (502, "Bad Gateway".toList),
   (503, "Service Unavailable".toList)]

/-- `utils.describe_status_code`: `'{} {}'.format(code, responses[code])`. -/
def describeStatusCode (n : Nat) : Except PyErr Str :=
  match assocLookup httpResponses n with
  | some d => .ok (natToDec n ++ " ".toList ++ d)
  | none => .error .keyError

/-- An HTTP response as observed by the code: final status, body, final URL
after redirects. -/
structure HttpResponse where
  status_code : Nat
  content : Str
  url : Str
deriving DecidableEq, Repr

/-- `utils.download(url, session)`, with the network abstracted as the response
the GET would produce.  Non-200 logs the described status at error level and
raises a bare `requests.HTTPError`; 200 logs at success level and returns the
body. -/
def download (url : Str) (resp : HttpResponse) : Except PyErr Str × List LogEvent :=
  let log0 := [LogEvent.status ("GET: ".toList ++ url)]
  if resp.status_code ≠ 200 then
    match describeStatusCode resp.status_code with
    | .ok desc => (.error .httpError, log0 ++ [LogEvent.error desc])
    | .error e => (.error e, log0)
  else
    match describeStatusCode resp.status_code with
    | .ok desc => (.ok resp.content, log0 ++ [LogEvent.success desc])
    | .error e => (.error e, log0)

/-! ## `urllib.parse.urlparse` -/

/-- Characters allowed in a URL scheme (`scheme_chars`). -/
def isSchemeCh (c : Char) : Bool :=
  c.isAlpha || (48 ≤ c.toNat && c.toNat ≤ 57) || c = '+' || c = '-' || c = '.'

/-- A character that does not end the netloc (`_splitnetloc` delimiters). -/
def netlocCh (c : Char) : Bool := c ≠ '/' && c ≠ '?' && c ≠ '#'

structure UrlParts where
  scheme : Str
  netloc : Str
  path : Str
  query : Str
  fragment : Str
deriving DecidableEq, Repr

/-- `urllib.parse.urlparse` (without the params split, which no recognizer
uses): a scheme (lower-cased) is split off before the first `':'` when the
text before it is a leading ASCII letter followed by scheme characters; then
`//netloc` delimited by `'/'`, `'?'` or `'#'`; then the fragment after the
first `'#'`; then the query after the first `'?'`. -/
def urlparse (s : Str) : UrlParts :=
  let pre := s.takeWhile (· ≠ ':')
  let schemeOk :=
    decide (pre.length < s.length) &&
      (match s with
       | c :: _ => c.isAlpha
       | [] => false) &&
      pre.all isSchemeCh
  let scheme := if schemeOk then lowerStr pre else []
  let rest := if schemeOk then s.drop (pre.length + 1) else s
  let hasNetloc := startsWithStr rest "//".toList
  let netloc := if hasNetloc then (rest.drop 2).takeWhile netlocCh else []
  let rest2 := if hasNetloc then (rest.drop 2).dropWhile netlocCh else rest
  let pathQuery := rest2.takeWhile (· ≠ '#')
  let fragment := (rest2.dropWhile (· ≠ '#')).drop 1
  let path := pathQuery.takeWhile (· ≠ '?')
  let query := (pathQuery.dropWhile (· ≠ '?')).drop 1
  ⟨scheme, netloc, path, query, fragment⟩

/-- `ParseResult.hostname`: the netloc after the last `'@'` and before the
port separator, lower-cased; `None` when empty.  (IPv6 bracket literals are
not modelled.) -/
def UrlParts.hostname (u : UrlParts) : Option Str :=
  let hostinfo := (u.netloc.reverse.takeWhile (· ≠ '@')).reverse
  let host := hostinfo.takeWhile (· ≠ ':')
  if host = [] then none else some (lowerStr host)

/-! ## `posixpath.normpath` and `utils.normpath` -/

/-- Python `p.split(sep)` for a single-character separator. -/
def splitOnCh (c : Char) : Str → List Str
  | [] => [[]]
  | x :: xs =>
    if x = c then [] :: splitOnCh c xs
    else
      match splitOnCh c xs with
      | h :: t => (x :: h) :: t
      | [] => [[x]]

/-- Python `'/'.join(comps)`. -/
def joinSlash : List Str → Str
  | [] => []
  | [c] => c
  | c :: rest => c ++ '/' :: joinSlash rest

/-- One step of `posixpath.normpath`'s component loop; the accumulator is kept
reversed (its head is Python's `new_comps[-1]`). -/
def normComp (initSlashes : Nat) (acc : List Str) (comp : Str) : List Str :=
  if comp = [] ∨ comp = ['.'] then acc
  else if comp ≠ ['.', '.'] ∨ (initSlashes = 0 ∧ acc = []) ∨
      acc.head? = some ['.', '.'] then
    comp :: acc
  else
    match acc with
    | _ :: t => t
    | [] => []

/-- `posixpath.normpath`. -/
def posixNormpath (p : Str) : Str :=
  if p = [] then ['.']
  else
    let initSlashes : Nat :=
      if startsWithStr p "//".toList ∧ ¬ startsWithStr p "///".toList then 2
      else if startsWithStr p "/".toList then 1 else 0
    let comps := splitOnCh '/' p
    let newComps := (comps.foldl (normComp initSlashes) []).reverse
    let joined := List.replicate initSlashes '/' ++ joinSlash newComps
    if joined = [] then ['.'] else joined

/-- Modelled from the spec: `utils.normpath`, applied by the AtCoder
recognizers to URL paths, belongs to this repository but is absent from the
provided sources (only its callers are present); following the spec's
treatment of recognizers as pure URL-shape tests it is modelled as POSIX path
normalization. -/
def normpath (p : Str) : Str := posixNormpath p

/-! ## Python comparisons (`sorted` on strings, pairs and lists) -/

/-- Python's lexicographic `<` on sequences, given `<` on elements: a proper
prefix is smaller; the first differing position decides. -/
def lexLt [DecidableEq α] (ltE : α → α → Bool) : List α → List α → Bool
  | [], [] => false
  | [], _ :: _ => true
  | _ :: _, [] => false
  | x :: xs, y :: ys => if x = y then lexLt ltE xs ys else ltE x y

/-- Python `<` on single characters (code points). -/
def pyCharLt (a b : Char) : Bool := decide (a.toNat < b.toNat)

/-- Python `str` `<`: lexicographic on code points. -/
def pyStrLt : Str → Str → Bool := lexLt pyCharLt

/-- Python tuple `<` on `(str, str)` pairs. -/
def pyPairLt (x y : Str × Str) : Bool :=
  if x.1 = y.1 then pyStrLt x.2 y.2 else pyStrLt x.1 y.1

/-- Python list `<` on lists of `(str, str)` pairs. -/
def pyListPairLt : List (Str × Str) → List (Str × Str) → Bool := lexLt pyPairLt

/-- The non-strict order `sorted` effectively sorts strings by. -/
def pyStrLe (a b : Str) : Bool := ! pyStrLt b a

/-- The non-strict order `sorted` effectively sorts sample groups by. -/
def pyGroupLe (a b : List (Str × Str)) : Bool := ! pyListPairLt b a

/-! ## The Yukicoder service (`onlinejudge/yukicoder.py`) -/

/-- Identity fields of a `Yukicoder` problem (`problem_no` is the `/problems/no/`
number, `problem_id` the `/problems/` number; each may be absent). -/
structure Yukicoder where
  problem_no : Option Nat
  problem_id : Option Nat
deriving DecidableEq, Repr

/-- Python truthiness of an optional integer field (`None` and `0` are falsy). -/
def truthyNat : Option Nat → Bool
  | none => false
  | some n => decide (n ≠ 0)

/-- `Yukicoder.__init__`: `assert problem_no or problem_id`. -/
def Yukicoder.make (problem_no problem_id : Option Nat) : Except PyErr Yukicoder :=
  if truthyNat problem_no || truthyNat problem_id then
    Except.ok ⟨problem_no, problem_id⟩
  else Except.error PyErr.assertionError

/-- `re.match(r'^https?://yukicoder\.me/problems/(no/)?([0-9]+)/?$', s)`,
returning whether the `no/` group matched and the digit group.  (`$` in Python
also matches just before one trailing newline.) -/
def matchYukiProblemUrl (s : Str) : Option (Bool × Str) :=
  if startsWithStr s "http".toList then
    let r1 := s.drop 4
    let r2 := if startsWithStr r1 "s".toList then r1.drop 1 else r1
    if startsWithStr r2 "://yukicoder.me/problems/".toList then
      let r3 := r2.drop "://yukicoder.me/problems/".toList.length
      let hasNo := startsWithStr r3 "no/".toList
      let r4 := if hasNo then r3.drop 3 else r3
      let ds := r4.takeWhile isDigitCh
      let r5 := r4.drop ds.length
      let r6 := if startsWithStr r5 "/".toList then r5.drop 1 else r5
      if ds ≠ [] ∧ (r6 = [] ∨ r6 = ['\n']) then some (hasNo, ds) else none
    else none
  else none

/-- `Yukicoder.from_url`: on a match, `n = int(m.group(2).lstrip('0') or '0')`
and the entity is built with `problem_no=n` or `problem_id=n` according to the
`no/` group (the constructor assertion can fail for `n = 0`). -/
def Yukicoder.from_url (s : Str) : Except PyErr (Option Yukicoder) :=
  match matchYukiProblemUrl s with
  | some (hasNo, ds) =>
    let stripped := ds.dropWhile (· = '0')
    let n := decVal (if stripped = [] then ['0'] else stripped)
    if hasNo then
      match Yukicoder.make (some n) none with
      | .ok y => .ok (some y)
      | .error e => .error e
    else
      match Yukicoder.make none (some n) with
      | .ok y => .ok (some y)
      | .error e => .error e
  | none => .ok none

/-- `Yukicoder.get_url`. -/
def Yukicoder.get_url (y : Yukicoder) : Except PyErr Str :=
  if truthyNat y.problem_no then
    .ok ("https://yukicoder.me/problems/no/".toList ++ natToDec (y.problem_no.getD 0))
  else if truthyNat y.problem_id then
    .ok ("https://yukicoder.me/problems/".toList ++ natToDec (y.problem_id.getD 0))
  else .error PyErr.assertionError

/-- The `Yukicoder._languages` table (key, description). -/
def Yukicoder.languages : List (Str × Str) :=
  [("cpp".toList, "C++11 (gcc 4.8.5)".toList),
   ("cpp14".toList, "C++14 (gcc 6.2.0)".toList),
   ("c".toList, "C (gcc 4.8.5)".toList),
   ("java8".toList, "Java8 (openjdk 1.8.0_111)".toList),
   ("csharp".toList, "C# (mono 4.6.1)".toList),
   ("perl".toList, "Perl (5.16.3)".toList),
   ("perl6".toList, "Perl6 (rakudo 2016.10-114-g8e79509)".toList),
   ("php".toList, "PHP (5.4.16)".toList),
   ("python".toList, "Python2 (2.7.11)".toList),
   ("python3".toList, "Python3 (3.5.1)".toList),
   ("pypy2".toList, "PyPy2 (4.0.0)".toList),
   ("pypy3".toList, "PyPy3 (2.4.0)".toList),
   ("ruby".toList, "Ruby (2.3.1p112)".toList),
   ("d".toList, "D (dmd 2.071.1)".toList),
   ("go".toList, "Go (1.7.3)".toList),
   ("haskell".toList, "Haskell (7.8.3)".toList),
   ("scala".toList, "Scala (2.11.8)".toList),
   ("nim".toList, "Nim (0.15.2)".toList),
   ("rust".toList, "Rust (1.12.1)".toList),
   ("kotlin".toList, "Kotlin (1.0.2)".toList),
   ("scheme".toList, "Scheme (Gauche-0.9.4)".toList),
   ("crystal".toList, "Crystal (0.19.4)".toList),
   ("ocaml".toList, "OCaml (4.01.1)".toList),
   ("fsharp".toList, "F# (4.0)".toList),
   ("elixir".toList, "Elixir (0.12.5)".toList),
   ("lua".toList, "Lua (LuaJit 2.0.4)".toList),
   ("fortran".toList, "Fortran (gFortran 4.8.5)".toList),
   ("node".toList, "JavaScript (node v7.0.0)".toList),
   ("vim".toList, "Vim script (v8.0.0124)".toList),
   ("sh".toList, "Bash (Bash 4.2.46)".toList),
   ("text".toList, "Text (cat 8.22)".toList),
   ("nasm".toList, "Assembler (nasm 2.10.07)".toList),
   ("bf".toList, "Brainfuck (BFI 1.1)".toList),
   ("Whitespace".toList, "Whitespace (0.3)".toList)]

/-- `Yukicoder.get_languages`. -/
def Yukicoder.get_languages : List Str := Yukicoder.languages.map Prod.fst

/-- `Response.raise_for_status()`: raises `requests.HTTPError` for a 4xx or 5xx
status. -/
def raiseForStatus (status : Nat) : Except PyErr Unit :=
  if 400 ≤ status ∧ status < 600 then .error PyErr.httpError else .ok ()

/-- `re.match('^https?://yukicoder.me/submissions/[0-9]+/?$', url)`.  The `'.'`
between `yukicoder` and `me` is unescaped and matches any one character; `$`
also matches just before one trailing newline. -/
def matchYukiSubmissionUrl (u : Str) : Bool :=
  if startsWithStr u "http".toList then
    let r1 := u.drop 4
    let r2 := if startsWithStr r1 "s".toList then r1.drop 1 else r1
    if startsWithStr r2 "://yukicoder".toList then
      match r2.drop "://yukicoder".toList.length with
      | _ :: r3 =>
        if startsWithStr r3 "me/submissions/".toList then
          let r4 := r3.drop "me/submissions/".toList.length
          let ds := r4.takeWhile isDigitCh
          let r5 := r4.drop ds.length
          let r6 := if startsWithStr r5 "/".toList then r5.drop 1 else r5
          ds ≠ [] && (r6 = [] || r6 = ['\n'])
        else false
      | [] => false
    else false
  else false

/-- The observable responses driving one run of `Yukicoder.submit`. -/
structure YukiSubmitEnv where
  get_status : Nat
  form_found : Bool
  post_status : Nat
  post_url : Str
deriving DecidableEq, Repr

/-- `Yukicoder.submit`: GET the submit page (`raise_for_status`), find the
form (`return False` when absent), POST via `FormSender`
(`raise_for_status`), then classify by matching the final URL against the
submission-page pattern: `True` on a match, `False` otherwise. -/
def Yukicoder.submit (y : Yukicoder) (code : Str) (language : Option Str)
    (env : YukiSubmitEnv) : Except PyErr Bool :=
  if ! (match language with
        | some l => decide (l ∈ Yukicoder.get_languages)
        | none => false) then
    .error PyErr.assertionError
  else
    match raiseForStatus env.get_status with
    | .error e => .error e
    | .ok _ =>
      if ¬ env.form_found then .ok false
      else
        match raiseForStatus env.post_status with
        | .error e => .error e
        | .ok _ =>
          if matchYukiSubmissionUrl env.post_url then .ok true else .ok false

/-- The observable responses driving one run of `Yukicoder.login_with_github`
(the POST observations depend on the credentials sent). -/
structure YukiLoginEnv where
  get_status : Nat
  get_url_final : Str
  form_found : Bool
  post_status : Str × Str → Nat
  post_url_final : Str × Str → Str

/-- `Yukicoder.login_with_github`.  The second component of the result records
whether the credentials provider was invoked (the source calls
`get_credentials()` only after the already-signed-in check and the form
check). -/
def Yukicoder.login_with_github (y : Yukicoder) (env : YukiLoginEnv)
    (get_credentials : Unit → Str × Str) : Except PyErr (Bool × Bool) :=
  match raiseForStatus env.get_status with
  | .error e => .error e
  | .ok _ =>
    if (urlparse env.get_url_final).hostname = some "yukicoder.me".toList then
      .ok (true, false)
    else if ¬ env.form_found then
      .ok (false, false)
    else
      let creds := get_credentials ()
      match raiseForStatus (env.post_status creds) with
      | .error e => .error e
      | .ok _ =>
        if (urlparse (env.post_url_final creds)).hostname =
            some "yukicoder.me".toList then
          .ok (true, true)
        else .ok (false, true)

/-- One step of `Yukicoder.download_all`'s loop:
`samples[os.path.basename(name)] += [(fh.read(name).decode(), name)]` — read
the entry's content and append `(content, name)` to the `defaultdict(list)`
bucket of the base name. -/
def downloadAllStep (archive : List (Str × Str))
    (samples : List (Str × List (Str × Str))) (name : Str) :
    List (Str × List (Str × Str)) :=
  match assocLookup archive name with
  | some s =>
    assocSet samples (basenameStr name)
      ((assocLookup samples (basenameStr name)).getD [] ++ [(s, name)])
  | none => samples

/-- `Yukicoder.download_all`: GET the testcase zip, then for each archive entry
name in sorted order append `(content, name)` to the `defaultdict(list)` bucket
of its base name, and return `sorted(samples.values())`.  The archive is the
zip's entries as (full name, decoded content) pairs in archive order. -/
def Yukicoder.download_all (y : Yukicoder) (archive : List (Str × Str)) :
    List (List (Str × Str)) :=
  let names := List.insertionSort (fun a b => pyStrLe a b = true) (archive.map Prod.fst)
  let samples := names.foldl (downloadAllStep archive)
    ([] : List (Str × List (Str × Str)))
  List.insertionSort (fun a b => pyGroupLe a b = true) (samples.map Prod.snd)

/-- All buckets built by `download_all` are nonempty, consist of entries of the
archive, and are keyed by the common base name of their entries. -/
def GroupsOk (archive : List (Str × Str))
    (samples : List (Str × List (Str × Str))) : Prop :=
  ∀ p ∈ samples, p.2 ≠ [] ∧
    ∀ e ∈ p.2, basenameStr e.2 = p.1 ∧ (e.2, e.1) ∈ archive

/-! ## The AtCoder service (`onlinejudge/service/atcoder.py`) -/

/-- The AtCoder service singleton (it has no identity fields). -/
structure AtCoderService where
deriving DecidableEq, Repr

/-- `AtCoderService.get_url`. -/
def AtCoderService.get_url (svc : AtCoderService) : Str := "https://atcoder.jp/".toList

/-- `AtCoderService.from_url`: accepts any scheme in `('', 'http', 'https')`
with netloc `atcoder.jp`, `beta.atcoder.jp`, or `*.contest.atcoder.jp`. -/
def AtCoderService.from_url (s : Str) : Option AtCoderService :=
  let result := urlparse s
  if (result.scheme = [] ∨ result.scheme = "http".toList ∨
        result.scheme = "https".toList) ∧
      (result.netloc = "atcoder.jp".toList ∨
        result.netloc = "beta.atcoder.jp".toList ∨
        endsWithStr result.netloc ".contest.atcoder.jp".toList) then
    some ⟨⟩
  else none

/-- The observable responses driving one run of `AtCoderService.login` (the
POST observations depend on the credentials sent). -/
structure AtCoderLoginEnv where
  get_msgs : List Str
  get_url_final : Str
  post_msgs : Str × Str → List Str
  post_url_final : Str × Str → Str

/-- `AtCoderService.login`: GET the login page without redirects; when message
cookies are present, return `'login' not in resp.url` without requesting
credentials; otherwise obtain credentials, POST them, and return
`'login' not in resp.url` for the POST response.  The second component of the
result records whether the credentials provider was invoked. -/
def AtCoderService.login (svc : AtCoderService) (env : AtCoderLoginEnv)
    (get_credentials : Unit → Str × Str) : Bool × Bool :=
  if env.get_msgs ≠ [] then
    (! containsStr env.get_url_final "login".toList, false)
  else
    let creds := get_credentials ()
    (! containsStr (env.post_url_final creds) "login".toList, true)

/-- Identity fields of an `AtCoderProblem` (the lazily-populated cached fields,
all `None` at construction, are omitted). -/
structure AtCoderProblem where
  contest_id : Str
  problem_id : Str
deriving DecidableEq, Repr

/-- `[\w\-_]` as a character test (ASCII word characters and the hyphen;
Python's `\w` additionally covers non-ASCII word characters, not modelled). -/
def isWordCh (c : Char) : Bool := c.isAlphanum || c = '_' || c = '-'

/-- Does a remainder satisfy Python's `$` anchor (end, or one trailing
newline)? -/
def atEOL (rest : Str) : Bool := rest = [] || rest = ['\n']

/-- `re.match(r'^/contests/([\w\-_]+)/tasks/([\w\-_]+)$', p)`: since `'/'` is
not a word character the greedy runs are forced, so maximal-run parsing is
exactly the regex match. -/
def matchContestsTasks (p : Str) : Option (Str × Str) :=
  if startsWithStr p "/contests/".toList then
    let r1 := p.drop "/contests/".toList.length
    let cid := r1.takeWhile isWordCh
    let r2 := r1.drop cid.length
    if cid ≠ [] ∧ startsWithStr r2 "/tasks/".toList then
      let r3 := r2.drop "/tasks/".toList.length
      let pid := r3.takeWhile isWordCh
      if pid ≠ [] ∧ atEOL (r3.drop pid.length) then some (cid, pid) else none
    else none
  else none

/-- First branch of `AtCoderProblem.from_url`:
`<contest>.contest.atcoder.jp/tasks/<id>` — netloc with exactly three dots
ending in `.contest.atcoder.jp`, nonempty first label, path whose
`posixpath.split` after `normpath` is `('/tasks', basename)` with nonempty
basename. -/
def AtCoderProblem.from_url_first (s : Str) : Option AtCoderProblem :=
  let result := urlparse s
  let np := normpath result.path
  if (result.scheme = [] ∨ result.scheme = "http".toList ∨
        result.scheme = "https".toList) ∧
      result.netloc.count '.' = 3 ∧
      endsWithStr result.netloc ".contest.atcoder.jp".toList ∧
      result.netloc.takeWhile (· ≠ '.') ≠ [] ∧
      (posixSplit np).1 = "/tasks".toList ∧ (posixSplit np).2 ≠ [] then
    some ⟨result.netloc.takeWhile (· ≠ '.'), (posixSplit np).2⟩
  else none

/-- Second branch of `AtCoderProblem.from_url`: `atcoder.jp`/`beta.atcoder.jp`
with path `/contests/<cid>/tasks/<pid>`. -/
def AtCoderProblem.from_url_second (s : Str) : Option AtCoderProblem :=
  let result := urlparse s
  match matchContestsTasks (normpath result.path) with
  | some (cid, pid) =>
    if (result.scheme = [] ∨ result.scheme = "http".toList ∨
          result.scheme = "https".toList) ∧
        (result.netloc = "atcoder.jp".toList ∨
          result.netloc = "beta.atcoder.jp".toList) then
      some ⟨cid, pid⟩
    else none
  | none => none

/-- `AtCoderProblem.from_url`: the first branch returns when it matches,
otherwise the second branch decides. -/
def AtCoderProblem.from_url (s : Str) : Option AtCoderProblem :=
  match AtCoderProblem.from_url_first s with
  | some p => some p
  | none => AtCoderProblem.from_url_second s

/-- `AtCoderProblem.get_url`. -/
def AtCoderProblem.get_url (p : AtCoderProblem) : Str :=
  "http://".toList ++ p.contest_id ++ ".contest.atcoder.jp/tasks/".toList ++
    p.problem_id

/-- `re.match(r'^/submit\?task_id=([0-9]+)$', href)`. -/
def matchSubmitTaskId (h : Str) : Option Nat :=
  if startsWithStr h "/submit?task_id=".toList then
    let r1 := h.drop "/submit?task_id=".toList.length
    let ds := r1.takeWhile isDigitCh
    if ds ≠ [] ∧ atEOL (r1.drop ds.length) then some (decVal ds) else none
  else none

/-- The observable responses driving one run of `AtCoderProblem.submit_code`. -/
structure AtCoderSubmitEnv where
  language_dict : List Str
  get_msgs : List Str
  get_url_final : Str
  form_found : Bool
  task_msgs : List Str
  task_submit_href : Option Str
  post_status : Nat
  post_msgs : List Str
  post_url_final : Str
deriving Repr

/-- `AtCoderProblem._get_task_id`: GET the task page; message cookies raise
`SubmissionError`; a missing submit link raises `SubmissionError`; `assert m`
on the href pattern. -/
def AtCoderProblem.get_task_id (p : AtCoderProblem) (env : AtCoderSubmitEnv) :
    Except PyErr Nat :=
  if env.task_msgs ≠ [] then .error PyErr.submissionError
  else
    match env.task_submit_href with
    | none => .error PyErr.submissionError
    | some href =>
      match matchSubmitTaskId href with
      | some n => .ok n
      | none => .error PyErr.assertionError

/-- `AtCoderProblem.submit_code`, returning the `DummySubmission`'s URL on
success: assert the language is offered; GET the submit page (message cookies
or a redirect to `/login…` raise `SubmissionError`); find the form (missing
form raises `SubmissionError`); resolve the task id; POST via `FormSender` and
`raise_for_status`; classify by whether `'/submissions/me'` occurs in the
final URL — on success return the beta submissions URL, otherwise raise
`SubmissionError`. -/
def AtCoderProblem.submit_code (p : AtCoderProblem) (code : Str)
    (language : Str) (env : AtCoderSubmitEnv) : Except PyErr Str :=
  if language ∉ env.language_dict then .error PyErr.assertionError
  else if env.get_msgs ≠ [] then .error PyErr.submissionError
  else if startsWithStr (normpath (urlparse env.get_url_final).path)
      "/login".toList then .error PyErr.submissionError
  else if ¬ env.form_found then .error PyErr.submissionError
  else
    match p.get_task_id env with
    | .error e => .error e
    | .ok _ =>
      match raiseForStatus env.post_status with
      | .error e => .error e
      | .ok _ =>
        if containsStr env.post_url_final "/submissions/me".toList then
          .ok ("https://beta.atcoder.jp/contests/".toList ++ p.contest_id ++
            "/submissions/me".toList)
        else .error PyErr.submissionError

/-- Identity fields of an `AtCoderSubmission` (`problem_id` is the optional
associated problem, not an identity field). -/
structure AtCoderSubmission where
  contest_id : Str
  submission_id : Int
  problem_id : Option Str
deriving DecidableEq, Repr

/-- The second branch's host test
`result.netloc == ('atcoder.jp', 'beta.atcoder.jp')` compares a string with a
*tuple*: `str.__eq__` returns `NotImplemented` for a tuple and the reflected
comparison fails too, so in Python the expression is `False` whatever the
strings are. -/
def pyStrEqTuple (s : Str) (t : Str × Str) : Bool := false

/-- `re.match(r'^/contests/([\w\-_]+)/submissions/(\d+)$', p)`. -/
def matchContestsSubmissions (p : Str) : Option (Str × Str) :=
  if startsWithStr p "/contests/".toList then
    let r1 := p.drop "/contests/".toList.length
    let cid := r1.takeWhile isWordCh
    let r2 := r1.drop cid.length
    if cid ≠ [] ∧ startsWithStr r2 "/submissions/".toList then
      let r3 := r2.drop "/submissions/".toList.length
      let ds := r3.takeWhile isDigitCh
      if ds ≠ [] ∧ atEOL (r3.drop ds.length) then some (cid, ds) else none
    else none
  else none

/-- First branch of `AtCoderSubmission.from_url`: it accepts
`<contest>.contest.atcoder.jp/submissions/<n>` via `int(basename)`
(`ValueError` caught, leaving `submission_id = None` and falling through). -/
def AtCoderSubmission.from_url_first (s : Str) (problem_id : Option Str) :
    Option AtCoderSubmission :=
  let result := urlparse s
  let np := normpath result.path
  if (result.scheme = [] ∨ result.scheme = "http".toList ∨
        result.scheme = "https".toList) ∧
      result.netloc.count '.' = 3 ∧
      endsWithStr result.netloc ".contest.atcoder.jp".toList ∧
      result.netloc.takeWhile (· ≠ '.') ≠ [] ∧
      (posixSplit np).1 = "/submissions".toList then
    match pyInt (posixSplit np).2 with
    | some sid => some ⟨result.netloc.takeWhile (· ≠ '.'), sid, problem_id⟩
    | none => none
  else none

/-- Second branch of `AtCoderSubmission.from_url`: it requires
`result.netloc == ('atcoder.jp', 'beta.atcoder.jp')` — the always-false tuple
comparison — before its regex result is used. -/
def AtCoderSubmission.from_url_second (s : Str) (problem_id : Option Str) :
    Option AtCoderSubmission :=
  let result := urlparse s
  match matchContestsSubmissions (normpath result.path) with
  | some (cid, ds) =>
    if (result.scheme = [] ∨ result.scheme = "http".toList ∨
          result.scheme = "https".toList) ∧
        pyStrEqTuple result.netloc
          ("atcoder.jp".toList, "beta.atcoder.jp".toList) = true then
      match pyInt ds with
      | some sid => some ⟨cid, sid, problem_id⟩
      | none => none
    else none
  | none => none

/-- `AtCoderSubmission.from_url`: the first branch returns when it produces a
submission id, otherwise the second branch decides. -/
def AtCoderSubmission.from_url (s : Str) (problem_id : Option Str) :
    Option AtCoderSubmission :=
  match AtCoderSubmission.from_url_first s problem_id with
  | some sub => some sub
  | none => AtCoderSubmission.from_url_second s problem_id

/-- `AtCoderSubmission.get_url`. -/
def AtCoderSubmission.get_url (sub : AtCoderSubmission) : Str :=
  "http://".toList ++ sub.contest_id ++ ".contest.atcoder.jp/submissions/".toList ++
    intToDec sub.submission_id

theorem sampleZipper_add_data (z : SampleZipper) (s name : Str) :
    (z.add s name).data =
      match z.dangling with
      | none => z.data
      | some d => z.data ++ [(d, (s, name))] := by
  cases h : z.dangling <;> simp [SampleZipper.add, h]

/-- Folding `add` over `bs` from an arbitrary state with no dangling block:
the collected data is the old data extended by the consecutive pairs of `bs`,
and the dangling slot ends as the trailing odd element of `bs`. -/
theorem sampleZipper_foldl_none :
    ∀ (bs : List (Str × Str)) (data : List ((Str × Str) × (Str × Str)))
      (log : List LogEvent),
      (bs.foldl (fun z b => z.add b.1 b.2) ⟨data, none, log⟩ :
          SampleZipper).data = data ++ chunkPairs bs ∧
        (bs.foldl (fun z b => z.add b.1 b.2) ⟨data, none, log⟩ :
          SampleZipper).dangling = oddLast bs
  | [], data, log => by simp [chunkPairs, oddLast]
  | [a], data, log => by
    simp [SampleZipper.add, chunkPairs, oddLast]
  | a :: b :: rest, data, log => by
    rw [List.foldl_cons, List.foldl_cons]
    set z2 := ((⟨data, none, log⟩ : SampleZipper).add a.1 a.2).add b.1 b.2 with hz2
    have hd : z2.data = data ++ [((a.1, a.2), (b.1, b.2))] := by
      simp [hz2, SampleZipper.add]
    have hg : z2.dangling = none := by
      simp [hz2, SampleZipper.add]
    have hrec : z2 = ⟨data ++ [((a.1, a.2), (b.1, b.2))], none, z2.log⟩ := by
      calc z2 = ⟨z2.data, z2.dangling, z2.log⟩ := rfl
        _ = _ := by rw [hd, hg]
    rw [hrec]
    constructor
    · simpa [chunkPairs] using
        (sampleZipper_foldl_none rest (data ++ [((a.1, a.2), (b.1, b.2))]) z2.log).1
    · simpa [oddLast] using
        (sampleZipper_foldl_none rest (data ++ [((a.1, a.2), (b.1, b.2))]) z2.log).2

theorem sampleZipper_run_data (bs : List (Str × Str)) :
    (SampleZipper.run bs).data = chunkPairs bs ∧
      (SampleZipper.run bs).dangling = oddLast bs := by
  have h := sampleZipper_foldl_none bs [] []
  exact ⟨by simpa [SampleZipper.run, SampleZipper.new] using h.1,
    by simpa [SampleZipper.run, SampleZipper.new] using h.2⟩

theorem chunkPairs_length : ∀ (l : List α), (chunkPairs l).length = l.length / 2
  | [] => by simp [chunkPairs]
  | [_] => by simp [chunkPairs]
  | _ :: _ :: rest => by
    simp only [chunkPairs, List.length_cons, chunkPairs_length rest]
    omega

theorem chunkPairs_get? : ∀ (l : List α) (k : ℕ) (a b : α),
    l.get? (2 * k) = some a → l.get? (2 * k + 1) = some b →
    (chunkPairs l).get? k = some (a, b)
  | [], k, a, b, h1, _ => by simp at h1
  | [_], k, a, b, h1, h2 => by
    match k, h1, h2 with
    | 0, _, h2 => simp at h2
    | k + 1, h1, _ => simp [show 2 * (k + 1) = 2 * k + 2 by ring] at h1
  | x :: y :: rest, 0, a, b, h1, h2 => by
    simp at h1 h2
    simp [chunkPairs, h1, h2]
  | x :: y :: rest, k + 1, a, b, h1, h2 => by
    have e : 2 * (k + 1) = (2 * k) + 2 := by ring
    rw [e] at h1
    have e2 : 2 * (k + 1) + 1 = (2 * k + 1) + 2 := by ring
    rw [e2] at h2
    simp only [List.get?_cons_succ] at h1 h2
    simpa [chunkPairs] using chunkPairs_get? rest k a b h1 h2

theorem oddLast_of_odd : ∀ (l : List α), l.length % 2 = 1 →
    ∃ a, oddLast l = some a ∧ l.get? (l.length - 1) = some a
  | [], h => by simp at h
  | [a], _ => ⟨a, rfl, rfl⟩
  | x :: y :: rest, h => by
    simp only [List.length_cons] at h ⊢
    have h' : rest.length % 2 = 1 := by omega
    obtain ⟨a, h1, h2⟩ := oddLast_of_odd rest h'
    refine ⟨a, h1, ?_⟩
    have e : rest.length + 1 + 1 - 1 = (rest.length - 1) + 2 := by omega
    rw [e]
    simpa using h2

/-- Claim C1: for every sequence of n labeled text blocks added in order to the
Sample Pairing Engine, `get()` returns exactly `⌊n/2⌋` pairs; the k-th pair
(0-based) consists of block `2k` as input and block `2k+1` as output; an odd
trailing block is reported as dangling via an error log, but the complete pairs
are all returned unchanged and in order. -/
theorem sampleZipper_pairing (bs : List (Str × Str)) :
    ((SampleZipper.run bs).get).1.length = bs.length / 2 ∧
    (∀ (k : ℕ) (a b : Str × Str), bs.get? (2 * k) = some a →
      bs.get? (2 * k + 1) = some b →
      ((SampleZipper.run bs).get).1.get? k = some (a, b)) ∧
    (bs.length % 2 = 1 → ∃ last, bs.get? (bs.length - 1) = some last ∧
      (SampleZipper.run bs).dangling = some last ∧
      ((SampleZipper.run bs).get).2 =
        [LogEvent.error ("dangling sample string: ".toList ++ last.2)]) := by
  obtain ⟨hdata, hdang⟩ := sampleZipper_run_data bs
  have hget1 : ((SampleZipper.run bs).get).1 = (SampleZipper.run bs).data := by
    unfold SampleZipper.get
    cases (SampleZipper.run bs).dangling <;> rfl
  refine ⟨?_, ?_, ?_⟩
  · rw [hget1, hdata, chunkPairs_length]
  · intro k a b h1 h2
    rw [hget1, hdata]
    exact chunkPairs_get? bs k a b h1 h2
  · intro hodd
    obtain ⟨last, hl1, hl2⟩ := oddLast_of_odd bs hodd
    refine ⟨last, hl2, by rw [hdang, hl1], ?_⟩
    unfold SampleZipper.get
    rw [hdang, hl1]

/-- Witness for C1 on the spec's literal example
`[("3\n","in"),("5\n","out"),("dangling","in2")]`. -/
theorem sampleZipper_pairing_witness :
    ((SampleZipper.run
        [("3\n".toList, "in".toList), ("5\n".toList, "out".toList),
         ("dangling".toList, "in2".toList)]).get).1.get? 0 =
      some (("3\n".toList, "in".toList), ("5\n".toList, "out".toList)) :=
  (sampleZipper_pairing _).2.1 0 _ _ (by decide) (by decide)

/-! ### Label-independence of the pairing (claim C9) -/

theorem chunkPairs_map (f : α → β) :
    ∀ (l : List α), chunkPairs (l.map f) = (chunkPairs l).map (Prod.map f f)
  | [] => by simp [chunkPairs]
  | [_] => by simp [chunkPairs]
  | _ :: _ :: rest => by simp [chunkPairs, chunkPairs_map f rest]

theorem map_erase_chunkPairs (l : List (Str × Str)) :
    (chunkPairs l).map erasePairNames = chunkPairs (l.map Prod.fst) := by
  rw [chunkPairs_map]
  apply List.map_congr_left
  intro p _
  rfl

theorem oddLast_isSome_iff : ∀ (l : List α), (oddLast l).isSome = decide (l.length % 2 = 1)
  | [] => by simp [oddLast]
  | [_] => by simp [oddLast]
  | _ :: _ :: rest => by
    simp only [oddLast, List.length_cons, oddLast_isSome_iff rest,
      decide_eq_decide]
    omega

/-- Claim C9: the labels (names) of the blocks fed to `SampleZipper` influence
only the warnings and the stored name strings — for two block sequences with
position-wise equal texts, `get()` emits pairs with identical text contents in
identical order, and the dangling status coincides. -/
theorem sampleZipper_label_independent (l₁ l₂ : List (Str × Str))
    (h : l₁.map Prod.fst = l₂.map Prod.fst) :
    ((SampleZipper.run l₁).get).1.map erasePairNames =
      ((SampleZipper.run l₂).get).1.map erasePairNames ∧
    ((SampleZipper.run l₁).dangling).isSome = ((SampleZipper.run l₂).dangling).isSome := by
  obtain ⟨hd₁, hg₁⟩ := sampleZipper_run_data l₁
  obtain ⟨hd₂, hg₂⟩ := sampleZipper_run_data l₂
  have hget : ∀ (z : SampleZipper), (z.get).1 = z.data := by
    intro z
    unfold SampleZipper.get
    cases z.dangling <;> rfl
  have hlen : l₁.length = l₂.length := by
    have := congrArg List.length h
    simpa using this
  constructor
  · rw [hget, hget, hd₁, hd₂, map_erase_chunkPairs, map_erase_chunkPairs, h]
  · rw [hg₁, hg₂, oddLast_isSome_iff, oddLast_isSome_iff, hlen]

/-- Witness for C9: same texts, different labels (one of which is the
mislabeled "Output" variant), identical emitted text pairs. -/
theorem sampleZipper_label_independent_witness :
    ((SampleZipper.run [("1\n".toList, "Input".toList), ("2\n".toList, "Output".toList)]).get).1.map
        erasePairNames =
      ((SampleZipper.run [("1\n".toList, "Output".toList), ("2\n".toList, "xyz".toList)]).get).1.map
        erasePairNames :=
  (sampleZipper_label_independent _ _ (by decide)).1

/-! ### `FormSender` payload extraction (claim C8) -/

theorem assocLookup_assocSet [DecidableEq κ] (l : List (κ × β)) (sk qk : κ) (sv : β) :
    assocLookup (assocSet l sk sv) qk =
      if qk = sk then some sv else assocLookup l qk := by
  induction l with
  | nil =>
    by_cases h : qk = sk
    · subst h; simp [assocSet, assocLookup]
    · simp [assocSet, assocLookup, h, Ne.symm h]
  | cons a t ih =>
    obtain ⟨k, w⟩ := a
    by_cases hk : k = sk
    · subst hk
      by_cases hq : qk = k
      · subst hq; simp [assocSet, assocLookup]
      · simp [assocSet, assocLookup, hq, Ne.symm hq]
    · by_cases hq : qk = k
      · subst hq
        simp [assocSet, assocLookup, hk]
      · simp [assocSet, assocLookup, hk, Ne.symm hq, hq, ih]

/-- Claim C8: `FormSender` construction puts into its field map exactly those
input elements having both a nonempty `name` attribute and a nonempty `value`
attribute: a key is absent iff no qualifying input carries it, and every stored
binding comes from a qualifying input element with exactly that name and
value. -/
theorem formSender_payload (inputs : List InputTag) (k : Str) :
    (assocLookup (FormSender.initPayload inputs) k = none ↔
      ∀ inp ∈ inputs, ¬ Qualifies inp k) ∧
    (∀ v, assocLookup (FormSender.initPayload inputs) k = some v →
      ∃ inp ∈ inputs, Qualifies inp k ∧ inp.value = some v) := by
  induction inputs using List.reverseRecOn with
  | nil => simp [FormSender.initPayload, assocLookup]
  | append_singleton l inp ih =>
    obtain ⟨nameOpt, valueOpt⟩ := inp
    have hskip : ∀ (io : InputTag), ¬ Qualifies io k →
        (assocLookup (FormSender.initPayload l) k = none ↔
          ∀ inp ∈ l ++ [io], ¬ Qualifies inp k) ∧
        (∀ v, assocLookup (FormSender.initPayload l) k = some v →
          ∃ inp ∈ l ++ [io], Qualifies inp k ∧ inp.value = some v) := by
      intro io hq
      constructor
      · rw [ih.1]
        simp only [List.mem_append, List.mem_singleton]
        constructor
        · rintro h inp (hm | rfl)
          · exact h inp hm
          · exact hq
        · intro h inp hm
          exact h inp (Or.inl hm)
      · intro v hv
        obtain ⟨inp, hm, hrest⟩ := ih.2 v hv
        exact ⟨inp, List.mem_append_left _ hm, hrest⟩
    match nameOpt, valueOpt with
    | none, vo =>
      have hstep : FormSender.initPayload (l ++ [⟨none, vo⟩]) =
          FormSender.initPayload l := by
        simp [FormSender.initPayload, List.foldl_append]
      rw [hstep]
      exact hskip _ (by simp [Qualifies])
    | some n, none =>
      have hstep : FormSender.initPayload (l ++ [⟨some n, none⟩]) =
          FormSender.initPayload l := by
        simp [FormSender.initPayload, List.foldl_append]
      rw [hstep]
      exact hskip _ (by simp [Qualifies])
    | some n, some v₀ =>
      by_cases hcond : n ≠ [] ∧ v₀ ≠ []
      · have hstep : FormSender.initPayload (l ++ [⟨some n, some v₀⟩]) =
            assocSet (FormSender.initPayload l) n v₀ := by
          simp [FormSender.initPayload, List.foldl_append, hcond]
        rw [hstep, assocLookup_assocSet]
        by_cases hk : k = n
        · subst hk
          simp only [if_pos rfl]
          constructor
          · constructor
            · intro h
              exact absurd h (by simp)
            · intro h
              exact absurd (show Qualifies ⟨some k, some v₀⟩ k by
                simp [Qualifies, hcond.1, hcond.2]) (h _ (by simp))
          · intro v hv
            refine ⟨⟨some k, some v₀⟩, by simp, ?_, ?_⟩
            · simp [Qualifies, hcond.1, hcond.2]
            · simpa using hv
        · rw [if_neg hk]
          exact hskip _ (by simp [Qualifies]; intro h; exact absurd h.symm hk)
      · have hstep : FormSender.initPayload (l ++ [⟨some n, some v₀⟩]) =
            FormSender.initPayload l := by
          simp only [FormSender.initPayload, List.foldl_append, List.foldl_cons,
            List.foldl_nil]
          rw [if_neg hcond]
        rw [hstep]
        refine hskip _ ?_
        intro hq
        obtain ⟨h1, h2, _, h4⟩ := hq
        apply hcond
        refine ⟨?_, ?_⟩
        · intro hn
          apply h2
          injection h1 with h1'
          rw [← h1', hn]
        · intro hv
          exact h4 (by rw [hv])

/-- Witness for C8: a form with a prefilled hidden field, a value-less field,
a name-less field and an empty-value field keeps exactly the first. -/
theorem formSender_payload_witness :
    assocLookup
        (FormSender.initPayload
          [⟨some "csrf_token".toList, some "tok".toList⟩,
           ⟨some "source".toList, none⟩,
           ⟨none, some "stray".toList⟩,
           ⟨some "lang".toList, some "".toList⟩])
        "source".toList = none :=
  (formSender_payload _ _).1.mpr (by decide)

/-! ### `utils.session` save behaviour (claim C2) -/

theorem assocLookup_map_chmod (files : List (Str × CookieFile)) (p : Str)
    (m : Nat) (f : CookieFile) (h : assocLookup files p = some f) :
    assocLookup (files.map (chmodEntry p m)) p = some ⟨f.cookies, m⟩ := by
  induction files with
  | nil => simp [assocLookup] at h
  | cons a t ih =>
    obtain ⟨k, w⟩ := a
    rw [List.map_cons]
    by_cases hk : k = p
    · subst hk
      simp only [assocLookup, if_pos rfl] at h
      have hw : w = f := by injection h
      subst hw
      have hentry : chmodEntry k m (k, w) = (k, ⟨w.cookies, m⟩) := if_pos rfl
      rw [hentry]
      simp [assocLookup]
    · simp only [assocLookup, if_neg hk] at h
      have hentry : chmodEntry p m (k, w) = (k, w) := if_neg hk
      rw [hentry]
      simpa [assocLookup, hk] using ih h

theorem lookupFile_writeFile (fs : FileSystem) (p : Str) (c : List (Str × Str)) :
    ∃ m, (fs.writeFile p c).lookupFile p = some ⟨c, m⟩ := by
  unfold FileSystem.writeFile FileSystem.lookupFile
  exact ⟨_, by rw [assocLookup_assocSet, if_pos rfl]⟩

theorem lookupFile_chmod (fs : FileSystem) (p : Str) (m : Nat) (f : CookieFile)
    (h : fs.lookupFile p = some f) :
    (fs.chmod p m).lookupFile p = some ⟨f.cookies, m⟩ :=
  assocLookup_map_chmod fs.files p m f h

theorem mem_makedirs (fs : FileSystem) (d : Str) : d ∈ (fs.makedirs d).dirs := by
  unfold FileSystem.makedirs
  by_cases h : d ∈ fs.dirs <;> simp [h]

/-- Counterexample to claim C2: when the `with` body raises, the exception
propagates through the bare `yield` of the `@contextlib.contextmanager`
generator and the post-`yield` save/`makedirs`/`chmod` code never runs — on
this error path no cookie file is written at all (the filesystem is returned
unchanged), contradicting "on every exit path". -/
theorem session_error_counterexample :
    (sessionScope (⟨[], []⟩ : FileSystem) "user/cookie.jar".toList
        (fun _ => (Except.error PyErr.runtimeError :
          Except PyErr (Unit × PySession)))).2 = ⟨[], []⟩ ∧
    (sessionScope (⟨[], []⟩ : FileSystem) "user/cookie.jar".toList
        (fun _ => (Except.error PyErr.runtimeError :
          Except PyErr (Unit × PySession)))).1 = Except.error PyErr.runtimeError :=
  ⟨rfl, rfl⟩

/-- Claim C2 (amended): on *normal* completion of the body, the released
session's current cookies are serialized to the cookiejar path, the parent
directory (when the path has one) is created, and the file's permission bits
are set to `0o600` (owner read/write only); when the body raises, the save is
skipped and the exception propagates. -/
theorem session_saves (fs : FileSystem) (path : Str) (a : α) (s' : PySession)
    (body : PySession → Except PyErr (α × PySession))
    (h : body ⟨loadedCookies fs path⟩ = Except.ok (a, s')) :
    (sessionScope fs path body).1 = Except.ok a ∧
    (sessionScope fs path body).2.lookupFile path = some ⟨s'.cookies, 0o600⟩ ∧
    (dirnameStr path ≠ [] →
      dirnameStr path ∈ (sessionScope fs path body).2.dirs) := by
  have hrw : sessionScope fs path body =
      (Except.ok a,
        (((if dirnameStr path ≠ [] then fs.makedirs (dirnameStr path)
           else fs).writeFile path s'.cookies).chmod path 0o600)) := by
    simp only [sessionScope, h]
  rw [hrw]
  refine ⟨rfl, ?_, ?_⟩
  · obtain ⟨m, hm⟩ :=
      lookupFile_writeFile
        (if dirnameStr path ≠ [] then fs.makedirs (dirnameStr path) else fs)
        path s'.cookies
    exact lookupFile_chmod _ path 0o600 _ hm
  · intro hd
    show dirnameStr path ∈
      (if dirnameStr path ≠ [] then fs.makedirs (dirnameStr path) else fs).dirs
    rw [if_pos hd]
    exact mem_makedirs _ _

/-- Witness for the amended C2 on a concrete body that stores one cookie. -/
theorem session_saves_witness :
    ((sessionScope (⟨[], []⟩ : FileSystem) "user/cookie.jar".toList
        (fun _ => Except.ok ((),
          (⟨[("sessionid".toList, "abc".toList)]⟩ : PySession)))).2.lookupFile
      "user/cookie.jar".toList) =
      some ⟨[("sessionid".toList, "abc".toList)], 0o600⟩ :=
  (session_saves _ _ () _ _ rfl).2.1

/-! ### `utils.download` status handling (claim C4) -/

/-- Counterexample to claim C4: the exception raised for a non-200 status is
the bare `requests.HTTPError` — the very same value for status 404 and status
500 — so it carries neither the numeric status code nor the canned
description. -/
theorem download_error_counterexample :
    (download "http://judge/".toList ⟨404, "a".toList, "u".toList⟩).1 =
      (download "http://judge/".toList ⟨500, "b".toList, "u".toList⟩).1 ∧
    (download "http://judge/".toList ⟨404, "a".toList, "u".toList⟩).1 =
      Except.error PyErr.httpError :=
  ⟨rfl, rfl⟩

/-- Claim C4 (amended): for a response whose status code is not 200 the helper
raises a hard failure (a bare `HTTPError`) and logs the numeric code together
with its canned description at error level; for a 200 response it returns the
content, raises nothing, and logs no error. -/
theorem download_status (url : Str) (resp : HttpResponse) (desc : Str)
    (hdesc : assocLookup httpResponses resp.status_code = some desc) :
    (resp.status_code ≠ 200 →
      (download url resp).1 = Except.error PyErr.httpError ∧
      (download url resp).2 =
        [LogEvent.status ("GET: ".toList ++ url),
         LogEvent.error (natToDec resp.status_code ++ " ".toList ++ desc)]) ∧
    (resp.status_code = 200 →
      (download url resp).1 = Except.ok resp.content ∧
      (download url resp).2 =
        [LogEvent.status ("GET: ".toList ++ url),
         LogEvent.success (natToDec resp.status_code ++ " ".toList ++ desc)]) := by
  unfold download describeStatusCode
  rw [hdesc]
  by_cases h : resp.status_code = 200 <;> simp [h]

/-- Witness for the amended C4 at status 404. -/
theorem download_status_witness :
    (download "http://judge/p".toList ⟨404, "c".toList, "u".toList⟩).1 =
      Except.error PyErr.httpError :=
  ((download_status "http://judge/p".toList ⟨404, "c".toList, "u".toList⟩
    "Not Found".toList (by decide)).1 (by decide)).1

/-! ### Generic list and string lemmas -/

theorem takeWhile_append_all (p : Char → Bool) (l₁ l₂ : Str)
    (h : ∀ c ∈ l₁, p c = true) :
    (l₁ ++ l₂).takeWhile p = l₁ ++ l₂.takeWhile p := by
  induction l₁ with
  | nil => rfl
  | cons a t ih =>
    simp only [List.cons_append, List.takeWhile_cons, h a (by simp)]
    simp [ih (fun c hc => h c (by simp [hc]))]

theorem dropWhile_append_all (p : Char → Bool) (l₁ l₂ : Str)
    (h : ∀ c ∈ l₁, p c = true) :
    (l₁ ++ l₂).dropWhile p = l₂.dropWhile p := by
  induction l₁ with
  | nil => rfl
  | cons a t ih =>
    simp only [List.cons_append, List.dropWhile_cons, h a (by simp)]
    simp [ih (fun c hc => h c (by simp [hc]))]

theorem takeWhile_all (p : Char → Bool) (l : Str) (h : ∀ c ∈ l, p c = true) :
    l.takeWhile p = l := by
  have := takeWhile_append_all p l [] h
  simpa using this

theorem dropWhile_all_none (p : Char → Bool) (l : Str) (h : ∀ c ∈ l, p c = true) :
    l.dropWhile p = [] := by
  have := dropWhile_append_all p l [] h
  simpa using this

theorem takeWhile_cons_neg (p : Char → Bool) (c : Char) (l : Str)
    (h : p c = false) : (c :: l).takeWhile p = [] := by
  simp [List.takeWhile_cons, h]

theorem dropWhile_cons_neg (p : Char → Bool) (c : Char) (l : Str)
    (h : p c = false) : (c :: l).dropWhile p = c :: l := by
  simp [List.dropWhile_cons, h]

theorem dropWhile_none (p : Char → Bool) (l : Str) (h : ∀ c ∈ l, p c = false) :
    l.dropWhile p = l := by
  cases l with
  | nil => rfl
  | cons c t => simp [List.dropWhile_cons, h c (by simp)]

theorem startsWithStr_nil : ∀ (s : Str), startsWithStr s [] = true
  | [] => rfl
  | _ :: _ => rfl

theorem startsWithStr_prefix : ∀ (pre t : Str), startsWithStr (pre ++ t) pre = true
  | [], t => startsWithStr_nil t
  | c :: cs, t => by simp [startsWithStr, startsWithStr_prefix cs t]

theorem startsWithStr_iff_exists : ∀ (s pre : Str),
    startsWithStr s pre = true ↔ ∃ t, s = pre ++ t
  | s, [] => by simp [startsWithStr_nil]
  | [], p :: ps => by simp [startsWithStr]
  | c :: cs, p :: ps => by
    simp only [startsWithStr, Bool.and_eq_true, decide_eq_true_eq]
    constructor
    · rintro ⟨rfl, h⟩
      obtain ⟨t, rfl⟩ := (startsWithStr_iff_exists cs ps).1 h
      exact ⟨t, rfl⟩
    · rintro ⟨t, ht⟩
      injection ht with h1 h2
      subst h1
      exact ⟨rfl, (startsWithStr_iff_exists cs ps).2 ⟨t, h2⟩⟩

theorem endsWithStr_append (a b : Str) : endsWithStr (a ++ b) b = true := by
  unfold endsWithStr
  rw [List.reverse_append]
  exact startsWithStr_prefix b.reverse a.reverse

theorem endsWithStr_iff (s suf : Str) :
    endsWithStr s suf = true ↔ ∃ t, s = t ++ suf := by
  unfold endsWithStr
  rw [startsWithStr_iff_exists]
  constructor
  · rintro ⟨t, ht⟩
    refine ⟨t.reverse, ?_⟩
    have h2 := congrArg List.reverse ht
    simpa using h2
  · rintro ⟨t, rfl⟩
    exact ⟨t.reverse, by simp⟩

theorem drop_prefix_length (pre t : Str) : (pre ++ t).drop pre.length = t :=
  List.drop_left pre t

/-! ### Decimal conversion lemmas -/

theorem isDigitCh_digitCh (d : Nat) (h : d < 10) : isDigitCh (digitCh d) = true := by
  interval_cases d <;> decide

theorem toNat_digitCh (d : Nat) (h : d < 10) : (digitCh d).toNat - 48 = d := by
  interval_cases d <;> decide

theorem decDigitsAux_lt : ∀ (fuel n : Nat), ∀ d ∈ decDigitsAux fuel n, d < 10 := by
  intro fuel
  induction fuel with
  | zero => intro n d hd; simp [decDigitsAux] at hd
  | succ fuel ih =>
    intro n d hd
    by_cases h : n = 0
    · simp [decDigitsAux, h] at hd
    · simp only [decDigitsAux, if_neg h, List.mem_cons] at hd
      rcases hd with rfl | hd
      · exact Nat.mod_lt _ (by norm_num)
      · exact ih _ _ hd

theorem decDigitsAux_ne_nil (fuel n : Nat) (hn : n ≠ 0) (hf : fuel ≠ 0) :
    decDigitsAux fuel n ≠ [] := by
  cases fuel with
  | zero => exact absurd rfl hf
  | succ fuel => simp [decDigitsAux, hn]

theorem valLS_decDigitsAux : ∀ (fuel n : Nat), n ≤ fuel →
    valLS (decDigitsAux fuel n) = n := by
  intro fuel
  induction fuel with
  | zero => intro n h; interval_cases n; simp [decDigitsAux, valLS]
  | succ fuel ih =>
    intro n h
    by_cases h0 : n = 0
    · simp [decDigitsAux, h0, valLS]
    · simp only [decDigitsAux, if_neg h0, valLS]
      have hdiv : n / 10 ≤ fuel := by
        have := Nat.div_lt_self (Nat.pos_of_ne_zero h0) (by norm_num : 1 < 10)
        omega
      rw [ih _ hdiv]
      omega

theorem valMS_append_singleton (l : List Nat) (d : Nat) :
    valMS (l ++ [d]) = 10 * valMS l + d := by
  simp [valMS, List.foldl_append]

theorem valMS_reverse : ∀ (l : List Nat), valMS l.reverse = valLS l
  | [] => rfl
  | d :: ds => by
    simp only [List.reverse_cons, valLS]
    rw [valMS_append_singleton, valMS_reverse ds]
    ring

theorem decVal_map_digitCh_aux (l : List Nat) (h : ∀ d ∈ l, d < 10) :
    ∀ acc : Nat, (l.map digitCh).foldl (fun a c => 10 * a + (c.toNat - 48)) acc =
      l.foldl (fun a d => 10 * a + d) acc := by
  induction l with
  | nil => intro acc; rfl
  | cons d ds ih =>
    intro acc
    simp only [List.map_cons, List.foldl_cons]
    rw [toNat_digitCh d (h d (by simp))]
    exact ih (fun x hx => h x (by simp [hx])) _

theorem decVal_map_digitCh (l : List Nat) (h : ∀ d ∈ l, d < 10) :
    decVal (l.map digitCh) = valMS l :=
  decVal_map_digitCh_aux l h 0

theorem natToDec_all_digits (n : Nat) : ∀ c ∈ natToDec n, isDigitCh c = true := by
  unfold natToDec
  by_cases h : n = 0
  · intro c hc
    simp only [if_pos h, List.mem_singleton] at hc
    subst hc
    decide
  · intro c hc
    simp only [if_neg h] at hc
    obtain ⟨d, hd, rfl⟩ := List.mem_map.1 hc
    exact isDigitCh_digitCh d (decDigitsAux_lt n n d (List.mem_reverse.1 hd))

theorem natToDec_ne_nil (n : Nat) : natToDec n ≠ [] := by
  unfold natToDec
  by_cases h : n = 0
  · simp [h]
  · simp only [if_neg h]
    intro hcon
    have h2 := congrArg List.length hcon
    simp at h2
    exact decDigitsAux_ne_nil n n h h h2

theorem decVal_natToDec (n : Nat) : decVal (natToDec n) = n := by
  by_cases h : n = 0
  · subst h; rfl
  · unfold natToDec
    rw [if_neg h,
      decVal_map_digitCh _ (fun d hd => decDigitsAux_lt n n d (List.mem_reverse.1 hd)),
      valMS_reverse, valLS_decDigitsAux n n le_rfl]

theorem decVal_cons_zero (t : Str) : decVal ('0' :: t) = decVal t := rfl

theorem decVal_dropZeros (ds : Str) :
    decVal (ds.dropWhile (· = '0')) = decVal ds := by
  induction ds with
  | nil => rfl
  | cons c t ih =>
    by_cases h : c = '0'
    · subst h
      have hstep : List.dropWhile (fun x => decide (x = '0')) ('0' :: t) =
          List.dropWhile (fun x => decide (x = '0')) t := by
        simp [List.dropWhile_cons]
      show decVal (List.dropWhile (fun x => decide (x = '0')) ('0' :: t)) =
        decVal ('0' :: t)
      rw [hstep, ih, decVal_cons_zero]
    · simp [List.dropWhile_cons, h]

theorem isDigitCh_props (c : Char) (h : isDigitCh c = true) :
    c ≠ '-' ∧ c ≠ '+' ∧ c.isWhitespace = false ∧ c ≠ '/' ∧ c ≠ '.' ∧
      c ≠ '?' ∧ c ≠ '#' ∧ c ≠ '\n' ∧ c ≠ ':' ∧ c ≠ '@' := by
  refine ⟨?_, ?_, ?_, ?_, ?_, ?_, ?_, ?_, ?_, ?_⟩
  · rintro rfl; revert h; decide
  · rintro rfl; revert h; decide
  · rcases hb : c.isWhitespace with _ | _
    · rfl
    · exfalso
      simp only [Char.isWhitespace, Bool.or_eq_true, decide_eq_true_eq] at hb
      rcases hb with ((rfl | rfl) | rfl) | rfl <;> revert h <;> decide
  · rintro rfl; revert h; decide
  · rintro rfl; revert h; decide
  · rintro rfl; revert h; decide
  · rintro rfl; revert h; decide
  · rintro rfl; revert h; decide
  · rintro rfl; revert h; decide
  · rintro rfl; revert h; decide

theorem strip_noop (s : Str) (h : ∀ c ∈ s, c.isWhitespace = false) :
    ((s.dropWhile Char.isWhitespace).reverse.dropWhile Char.isWhitespace).reverse
      = s := by
  rw [dropWhile_none _ _ h, dropWhile_none, List.reverse_reverse]
  intro c hc
  exact h c (List.mem_reverse.1 hc)

theorem pyInt_intToDec (i : Int) : pyInt (intToDec i) = some i := by
  cases i with
  | ofNat n =>
    show pyInt (natToDec n) = some (Int.ofNat n)
    have hdig := natToDec_all_digits n
    have hstrip := strip_noop (natToDec n)
      (fun c hc => (isDigitCh_props c (hdig c hc)).2.2.1)
    obtain ⟨c, ds, hcds⟩ : ∃ c ds, natToDec n = c :: ds := by
      cases hn : natToDec n with
      | nil => exact absurd hn (natToDec_ne_nil n)
      | cons c ds => exact ⟨c, ds, rfl⟩
    have hc : isDigitCh c = true := hdig c (by rw [hcds]; simp)
    have h1 : c ≠ '-' := (isDigitCh_props c hc).1
    have h2 : c ≠ '+' := (isDigitCh_props c hc).2.1
    have h3 : (c :: ds).all isDigitCh = true := by rw [← hcds]; simpa using hdig
    unfold pyInt
    rw [hstrip, hcds]
    simp only [if_neg h1, if_neg h2, if_pos h3]
    rw [← hcds, decVal_natToDec]
    rfl
  | negSucc n =>
    show pyInt ('-' :: natToDec (n + 1)) = some (Int.negSucc n)
    have hdig := natToDec_all_digits (n + 1)
    have hstrip := strip_noop ('-' :: natToDec (n + 1)) (by
      intro c hc
      rcases List.mem_cons.1 hc with rfl | hc
      · decide
      · exact (isDigitCh_props c (hdig c hc)).2.2.1)
    have hds : natToDec (n + 1) ≠ [] := natToDec_ne_nil (n + 1)
    have hall : (natToDec (n + 1)).all isDigitCh = true := by simpa using hdig
    unfold pyInt
    rw [hstrip]
    simp only [if_pos (rfl : ('-' : Char) = '-'), if_pos (And.intro hds hall)]
    rw [decVal_natToDec, if_pos trivial]
    rfl

/-! ### Never prompting when already logged in (claim C6) -/

/-- Claim C6: when the login probe signals "already logged in" (AtCoder:
message cookies present on the GET to the login URL; Yukicoder: the auth GET
lands back on the `yukicoder.me` host), login returns without ever invoking
the credentials provider (the invocation flag stays `false`, and for
Yukicoder the call returns `True`). -/
theorem login_no_prompt_when_logged_in :
    (∀ (svc : AtCoderService) (env : AtCoderLoginEnv)
        (creds : Unit → Str × Str), env.get_msgs ≠ [] →
      (svc.login env creds).2 = false ∧
      (svc.login env creds).1 =
        ! containsStr env.get_url_final "login".toList) ∧
    (∀ (y : Yukicoder) (env : YukiLoginEnv) (creds : Unit → Str × Str),
      raiseForStatus env.get_status = Except.ok () →
      (urlparse env.get_url_final).hostname = some "yukicoder.me".toList →
      y.login_with_github env creds = Except.ok (true, false)) := by
  constructor
  · intro svc env creds h
    constructor
    · simp [AtCoderService.login, h]
    · simp [AtCoderService.login, h]
  · intro y env creds hstatus hhost
    unfold Yukicoder.login_with_github
    rw [hstatus]
    simp [hhost]

/-- Witness for C6: a concrete probe with a message cookie (AtCoder) never
invokes the concrete provider. -/
theorem login_no_prompt_witness :
    ((AtCoderService.mk.login
        ⟨["You have already signed in.".toList],
         "https://practice.contest.atcoder.jp/".toList,
         fun _ => [], fun _ => []⟩
        (fun _ => ("user".toList, "pass".toList))).2) = false :=
  (login_no_prompt_when_logged_in.1 _ _ _ (by simp)).1

/-! ### Submission success classification (claim C3) -/

/-- Counterexample to claim C3: a Yukicoder submission run whose GET of the
submit page succeeds (status 200) but whose page lacks the submit form — a
submission-protocol failure — makes `Yukicoder.submit` return the ordinary
value `False`: no hard error is raised. -/
theorem submit_silent_failure_counterexample :
    Yukicoder.submit ⟨some 9, none⟩ "x".toList (some "cpp".toList)
      ⟨200, false, 200, []⟩ = Except.ok false := by
  rfl

/-- Claim C3 (amended): a submission classifies as success exactly when the
final response URL matches the site's pattern (AtCoder: contains
`/submissions/me`; Yukicoder: matches
`^https?://yukicoder.me/submissions/[0-9]+/?$`).  AtCoder surfaces every
submission-protocol failure as a raised `SubmissionError`; Yukicoder surfaces
the missing form and the unrecognized final redirect as the returned failure
value `False` (with an error log), not as a raised error. -/
theorem submit_url_classification :
    (∀ (p : AtCoderProblem) (code language : Str) (env : AtCoderSubmitEnv)
        (r : Str), p.submit_code code language env = Except.ok r →
      containsStr env.post_url_final "/submissions/me".toList = true) ∧
    (∀ (p : AtCoderProblem) (code language : Str) (env : AtCoderSubmitEnv),
      language ∈ env.language_dict → env.get_msgs = [] →
      startsWithStr (normpath (urlparse env.get_url_final).path)
        "/login".toList = false →
      env.form_found = true →
      (∃ n, p.get_task_id env = Except.ok n) →
      raiseForStatus env.post_status = Except.ok () →
      ((containsStr env.post_url_final "/submissions/me".toList = true →
          p.submit_code code language env =
            Except.ok ("https://beta.atcoder.jp/contests/".toList ++
              p.contest_id ++ "/submissions/me".toList)) ∧
        (containsStr env.post_url_final "/submissions/me".toList = false →
          p.submit_code code language env =
            Except.error PyErr.submissionError))) ∧
    (∀ (p : AtCoderProblem) (code language : Str) (env : AtCoderSubmitEnv),
      language ∈ env.language_dict → env.get_msgs = [] →
      startsWithStr (normpath (urlparse env.get_url_final).path)
        "/login".toList = false →
      env.form_found = false →
      p.submit_code code language env = Except.error PyErr.submissionError) ∧
    (∀ (y : Yukicoder) (code language : Str) (env : YukiSubmitEnv),
      language ∈ Yukicoder.get_languages →
      raiseForStatus env.get_status = Except.ok () →
      env.form_found = false →
      Yukicoder.submit y code (some language) env = Except.ok false) ∧
    (∀ (y : Yukicoder) (code language : Str) (env : YukiSubmitEnv),
      language ∈ Yukicoder.get_languages →
      raiseForStatus env.get_status = Except.ok () →
      env.form_found = true →
      raiseForStatus env.post_status = Except.ok () →
      Yukicoder.submit y code (some language) env =
        Except.ok (matchYukiSubmissionUrl env.post_url)) := by
  refine ⟨?_, ?_, ?_, ?_, ?_⟩
  · intro p code language env r h
    unfold AtCoderProblem.submit_code at h
    by_cases c1 : language ∉ env.language_dict
    · rw [if_pos c1] at h; cases h
    rw [if_neg c1] at h
    by_cases c2 : env.get_msgs ≠ []
    · rw [if_pos c2] at h; cases h
    rw [if_neg c2] at h
    by_cases c3 : startsWithStr (normpath (urlparse env.get_url_final).path)
        "/login".toList = true
    · rw [if_pos c3] at h; cases h
    rw [if_neg c3] at h
    by_cases c4 : ¬ env.form_found = true
    · rw [if_pos c4] at h; cases h
    rw [if_neg c4] at h
    cases htid : p.get_task_id env with
    | error e => simp only [htid] at h; cases h
    | ok n =>
      simp only [htid] at h
      cases hrs : raiseForStatus env.post_status with
      | error e => simp only [hrs] at h; cases h
      | ok u =>
        simp only [hrs] at h
        by_cases c7 : containsStr env.post_url_final "/submissions/me".toList = true
        · exact c7
        · rw [if_neg c7] at h; cases h
  · intro p code language env h1 h2 h3 h4 h5 h6
    obtain ⟨n, hn⟩ := h5
    have g1 : ¬ language ∉ env.language_dict := not_not_intro h1
    have g2 : ¬ env.get_msgs ≠ [] := not_not_intro h2
    have g3 : ¬ (startsWithStr (normpath (urlparse env.get_url_final).path)
        "/login".toList = true) := by
      intro hcon
      rw [hcon] at h3
      cases h3
    have g4 : ¬ ¬ env.form_found = true := by simp [h4]
    constructor
    · intro hurl
      unfold AtCoderProblem.submit_code
      rw [if_neg g1, if_neg g2, if_neg g3, if_neg g4]
      simp only [hn, h6]
      rw [if_pos hurl]
    · intro hurl
      unfold AtCoderProblem.submit_code
      rw [if_neg g1, if_neg g2, if_neg g3, if_neg g4]
      simp only [hn, h6]
      rw [if_neg (show ¬ (containsStr env.post_url_final
          "/submissions/me".toList = true) from by
        intro hcon
        rw [hcon] at hurl
        cases hurl)]
  · intro p code language env h1 h2 h3 h4
    have g1 : ¬ language ∉ env.language_dict := not_not_intro h1
    have g2 : ¬ env.get_msgs ≠ [] := not_not_intro h2
    have g3 : ¬ (startsWithStr (normpath (urlparse env.get_url_final).path)
        "/login".toList = true) := by
      intro hcon
      rw [hcon] at h3
      cases h3
    have g4 : ¬ env.form_found = true := by simp [h4]
    unfold AtCoderProblem.submit_code
    rw [if_neg g1, if_neg g2, if_neg g3, if_pos g4]
  · intro y code language env hlang hget hform
    unfold Yukicoder.submit
    rw [if_neg (by simp [hlang]), hget]
    simp [hform]
  · intro y code language env hlang hget hform hpost
    unfold Yukicoder.submit
    rw [if_neg (by simp [hlang]), hget]
    simp only [hform]
    rw [if_neg (by simp), hpost]
    by_cases hm : matchYukiSubmissionUrl env.post_url = true
    · simp [hm]
    · simp only [Bool.not_eq_true] at hm
      simp [hm]

/-- Witness for the amended C3: a concrete Yukicoder submission redirected to
`https://yukicoder.me/submissions/123` classifies as success. -/
theorem submit_url_classification_witness :
    Yukicoder.submit ⟨some 9, none⟩ "x".toList (some "cpp".toList)
      ⟨200, true, 200, "https://yukicoder.me/submissions/123".toList⟩ =
      Except.ok (matchYukiSubmissionUrl
        "https://yukicoder.me/submissions/123".toList) ∧
    matchYukiSubmissionUrl "https://yukicoder.me/submissions/123".toList = true :=
  ⟨submit_url_classification.2.2.2.2 _ _ _ _ (by decide) rfl rfl rfl, by decide⟩

/-! ### The submission recognizer's dead second branch (claim C10) -/

/-- Claim C10: `AtCoderSubmission.from_url` returns `None` for every URL whose
netloc is exactly `atcoder.jp` or `beta.atcoder.jp` — including well-formed
`/contests/<id>/submissions/<number>` paths — because the second branch's host
test compares the netloc string against a tuple and therefore never holds;
only `<contest>.contest.atcoder.jp` hosts whose path splits as
`/submissions/<number>` are recognized. -/
theorem atcoder_submission_recognizer_tuple_bug :
    (∀ (s : Str) (pid : Option Str),
      ((urlparse s).netloc = "atcoder.jp".toList ∨
        (urlparse s).netloc = "beta.atcoder.jp".toList) →
      AtCoderSubmission.from_url s pid = none) ∧
    (∀ (s : Str) (pid : Option Str) (sub : AtCoderSubmission),
      AtCoderSubmission.from_url s pid = some sub →
      endsWithStr (urlparse s).netloc ".contest.atcoder.jp".toList = true ∧
      (posixSplit (normpath (urlparse s).path)).1 = "/submissions".toList ∧
      pyInt (posixSplit (normpath (urlparse s).path)).2 =
        some sub.submission_id) := by
  have hsecond : ∀ (s : Str) (pid : Option Str),
      AtCoderSubmission.from_url_second s pid = none := by
    intro s pid
    simp only [AtCoderSubmission.from_url_second]
    cases hm : matchContestsSubmissions (normpath (urlparse s).path) with
    | none => rfl
    | some cd =>
      obtain ⟨cid, ds⟩ := cd
      simp [pyStrEqTuple]
  constructor
  · intro s pid h
    have hcount : ¬ ((urlparse s).netloc.count '.' = 3) := by
      rcases h with h | h <;> rw [h] <;> decide
    have hfirst : AtCoderSubmission.from_url_first s pid = none := by
      unfold AtCoderSubmission.from_url_first
      rw [if_neg (fun hc => hcount hc.2.1)]
    unfold AtCoderSubmission.from_url
    rw [hfirst]
    exact hsecond s pid
  · intro s pid sub h
    unfold AtCoderSubmission.from_url at h
    cases hf : AtCoderSubmission.from_url_first s pid with
    | none =>
      rw [hf] at h
      have h2 : AtCoderSubmission.from_url_second s pid = some sub := h
      rw [hsecond s pid] at h2
      cases h2
    | some sub' =>
      rw [hf] at h
      have h2 : some sub' = some sub := h
      injection h2 with h2
      subst h2
      simp only [AtCoderSubmission.from_url_first] at hf
      by_cases hc : ((urlparse s).scheme = [] ∨
            (urlparse s).scheme = "http".toList ∨
            (urlparse s).scheme = "https".toList) ∧
          (urlparse s).netloc.count '.' = 3 ∧
          endsWithStr (urlparse s).netloc ".contest.atcoder.jp".toList = true ∧
          (urlparse s).netloc.takeWhile (· ≠ '.') ≠ [] ∧
          (posixSplit (normpath (urlparse s).path)).1 = "/submissions".toList
      · rw [if_pos hc] at hf
        cases hpi : pyInt (posixSplit (normpath (urlparse s).path)).2 with
        | none =>
          rw [hpi] at hf
          cases hf
        | some sid =>
          rw [hpi] at hf
          have h3 : some (AtCoderSubmission.mk
              ((urlparse s).netloc.takeWhile (· ≠ '.')) sid pid) = some sub' := hf
          injection h3 with h3
          refine ⟨hc.2.2.1, hc.2.2.2.2, ?_⟩
          rw [← h3]
      · rw [if_neg hc] at hf
        cases hf

/-- Witness for C10 on the well-formed modern submission URL. -/
theorem atcoder_submission_recognizer_witness :
    AtCoderSubmission.from_url
      "https://atcoder.jp/contests/abc073/submissions/1592381".toList none =
      none :=
  atcoder_submission_recognizer_tuple_bug.1 _ none (Or.inl (by decide))

/-! ### Python ordering lemmas (for `sorted`) -/

theorem char_eq_of_toNat_eq (a b : Char) (h : a.toNat = b.toNat) : a = b :=
  Char.ext_iff.2 (UInt32.toNat.inj h)

theorem pyCharLt_irrefl (a : Char) : pyCharLt a a = false := by
  simp [pyCharLt]

theorem pyCharLt_trans (a b c : Char) (h1 : pyCharLt a b = true)
    (h2 : pyCharLt b c = true) : pyCharLt a c = true := by
  simp only [pyCharLt, decide_eq_true_eq] at h1 h2 ⊢
  omega

theorem pyCharLt_total (a b : Char) :
    pyCharLt a b = true ∨ a = b ∨ pyCharLt b a = true := by
  simp only [pyCharLt, decide_eq_true_eq]
  rcases Nat.lt_trichotomy a.toNat b.toNat with h | h | h
  · exact Or.inl h
  · exact Or.inr (Or.inl (char_eq_of_toNat_eq a b h))
  · exact Or.inr (Or.inr h)

theorem lexLt_irrefl [DecidableEq α] (ltE : α → α → Bool)
    (hE : ∀ a, ltE a a = false) : ∀ l, lexLt ltE l l = false
  | [] => rfl
  | x :: xs => by simp [lexLt, lexLt_irrefl ltE hE xs]

theorem lexLt_trans [DecidableEq α] (ltE : α → α → Bool)
    (hEtr : ∀ a b c, ltE a b = true → ltE b c = true → ltE a c = true)
    (hEirr : ∀ a, ltE a a = false) :
    ∀ l₁ l₂ l₃, lexLt ltE l₁ l₂ = true → lexLt ltE l₂ l₃ = true →
      lexLt ltE l₁ l₃ = true
  | [], [], l₃, h1, _ => by cases h1
  | [], _ :: _, [], _, h2 => by cases h2
  | [], _ :: _, _ :: _, _, _ => rfl
  | _ :: _, [], _, h1, _ => by cases h1
  | _ :: _, _ :: _, [], _, h2 => by cases h2
  | x :: xs, y :: ys, z :: zs, h1, h2 => by
    simp only [lexLt] at h1 h2 ⊢
    by_cases hxy : x = y
    · subst hxy
      rw [if_pos rfl] at h1
      by_cases hyz : x = z
      · subst hyz
        rw [if_pos rfl] at h2
        rw [if_pos rfl]
        exact lexLt_trans ltE hEtr hEirr xs ys zs h1 h2
      · rw [if_neg hyz] at h2
        rw [if_neg hyz]
        exact h2
    · rw [if_neg hxy] at h1
      by_cases hyz : y = z
      · subst hyz
        rw [if_neg hxy]
        exact h1
      · rw [if_neg hyz] at h2
        have hlt : ltE x z = true := hEtr x y z h1 h2
        by_cases hxz : x = z
        · subst hxz
          rw [hEirr x] at hlt
          cases hlt
        · rw [if_neg hxz]
          exact hlt

theorem lexLt_total [DecidableEq α] (ltE : α → α → Bool)
    (hEt : ∀ a b, ltE a b = true ∨ a = b ∨ ltE b a = true) :
    ∀ l₁ l₂, lexLt ltE l₁ l₂ = true ∨ l₁ = l₂ ∨ lexLt ltE l₂ l₁ = true
  | [], [] => Or.inr (Or.inl rfl)
  | [], _ :: _ => Or.inl rfl
  | _ :: _, [] => Or.inr (Or.inr rfl)
  | x :: xs, y :: ys => by
    by_cases hxy : x = y
    · subst hxy
      rcases lexLt_total ltE hEt xs ys with h | h | h
      · exact Or.inl (by simp [lexLt, h])
      · exact Or.inr (Or.inl (by rw [h]))
      · exact Or.inr (Or.inr (by simp [lexLt, h]))
    · rcases hEt x y with h | h | h
      · exact Or.inl (by simp [lexLt, hxy, h])
      · exact absurd h hxy
      · refine Or.inr (Or.inr ?_)
        have hyx : ¬ (y = x) := fun hc => hxy hc.symm
        simp [lexLt, hyx, h]

theorem pyStrLt_irrefl (a : Str) : pyStrLt a a = false :=
  lexLt_irrefl pyCharLt pyCharLt_irrefl a

theorem pyStrLt_trans (a b c : Str) (h1 : pyStrLt a b = true)
    (h2 : pyStrLt b c = true) : pyStrLt a c = true :=
  lexLt_trans pyCharLt pyCharLt_trans pyCharLt_irrefl a b c h1 h2

theorem pyStrLt_total (a b : Str) :
    pyStrLt a b = true ∨ a = b ∨ pyStrLt b a = true :=
  lexLt_total pyCharLt pyCharLt_total a b

theorem pyPairLt_irrefl (x : Str × Str) : pyPairLt x x = false := by
  simp [pyPairLt, pyStrLt_irrefl]

theorem pyPairLt_trans (x y z : Str × Str) (h1 : pyPairLt x y = true)
    (h2 : pyPairLt y z = true) : pyPairLt x z = true := by
  simp only [pyPairLt] at h1 h2 ⊢
  by_cases hxy : x.1 = y.1
  · rw [if_pos hxy] at h1
    by_cases hyz : y.1 = z.1
    · rw [if_pos hyz] at h2
      rw [if_pos (hxy.trans hyz)]
      exact pyStrLt_trans _ _ _ h1 h2
    · rw [if_neg hyz] at h2
      rw [if_neg (fun hc => hyz (hxy ▸ hc)), hxy]
      exact h2
  · rw [if_neg hxy] at h1
    by_cases hyz : y.1 = z.1
    · rw [if_neg (fun hc => hxy (hc.trans hyz.symm)), ← hyz]
      exact h1
    · rw [if_neg hyz] at h2
      have hlt := pyStrLt_trans _ _ _ h1 h2
      by_cases hxz : x.1 = z.1
      · rw [hxz, pyStrLt_irrefl] at hlt
        cases hlt
      · rw [if_neg hxz]
        exact hlt

theorem pyPairLt_total (x y : Str × Str) :
    pyPairLt x y = true ∨ x = y ∨ pyPairLt y x = true := by
  simp only [pyPairLt]
  by_cases h1 : x.1 = y.1
  · rcases pyStrLt_total x.2 y.2 with h | h | h
    · exact Or.inl (by rw [if_pos h1]; exact h)
    · exact Or.inr (Or.inl (Prod.ext h1 h))
    · exact Or.inr (Or.inr (by rw [if_pos h1.symm]; exact h))
  · rcases pyStrLt_total x.1 y.1 with h | h | h
    · exact Or.inl (by rw [if_neg h1]; exact h)
    · exact absurd h h1
    · exact Or.inr (Or.inr (by rw [if_neg (fun hc => h1 hc.symm)]; exact h))

theorem pyListPairLt_irrefl (l : List (Str × Str)) : pyListPairLt l l = false :=
  lexLt_irrefl pyPairLt pyPairLt_irrefl l

theorem pyListPairLt_trans (a b c : List (Str × Str))
    (h1 : pyListPairLt a b = true) (h2 : pyListPairLt b c = true) :
    pyListPairLt a c = true :=
  lexLt_trans pyPairLt pyPairLt_trans pyPairLt_irrefl a b c h1 h2

theorem pyListPairLt_total (a b : List (Str × Str)) :
    pyListPairLt a b = true ∨ a = b ∨ pyListPairLt b a = true :=
  lexLt_total pyPairLt pyPairLt_total a b

theorem pyGroupLe_total (a b : List (Str × Str)) :
    pyGroupLe a b = true ∨ pyGroupLe b a = true := by
  simp only [pyGroupLe, Bool.not_eq_true']
  by_cases h1 : pyListPairLt b a = true
  · by_cases h2 : pyListPairLt a b = true
    · have := pyListPairLt_trans a b a h2 h1
      rw [pyListPairLt_irrefl] at this
      cases this
    · exact Or.inr (by simpa using h2)
  · exact Or.inl (by simpa using h1)

theorem pyGroupLe_trans (a b c : List (Str × Str))
    (h1 : pyGroupLe a b = true) (h2 : pyGroupLe b c = true) :
    pyGroupLe a c = true := by
  simp only [pyGroupLe, Bool.not_eq_true'] at h1 h2 ⊢
  by_cases hca : pyListPairLt c a = true
  · exfalso
    rcases pyListPairLt_total a b with h | h | h
    · have := pyListPairLt_trans c a b hca h
      rw [this] at h2
      cases h2
    · subst h
      rw [hca] at h2
      cases h2
    · rw [h] at h1
      cases h1
  · simpa using hca

/-! ### `download_all` bucket and ordering facts (claim C5) -/

theorem assocLookup_mem [DecidableEq κ] : ∀ (l : List (κ × β)) (k : κ) (v : β),
    assocLookup l k = some v → (k, v) ∈ l
  | [], k, v, h => by cases h
  | (k', w) :: t, k, v, h => by
    by_cases hk : k' = k
    · subst hk
      simp only [assocLookup, if_pos rfl] at h
      injection h with h
      subst h
      simp
    · simp only [assocLookup, if_neg hk] at h
      exact List.mem_cons_of_mem _ (assocLookup_mem t k v h)

theorem mem_assocSet [DecidableEq κ] : ∀ (l : List (κ × β)) (k : κ) (v : β)
    (q : κ × β), q ∈ assocSet l k v → q ∈ l ∨ q = (k, v)
  | [], k, v, q, h => by
    simp only [assocSet, List.mem_singleton] at h
    exact Or.inr h
  | (k', w) :: t, k, v, q, h => by
    by_cases hk : k' = k
    · subst hk
      simp only [assocSet, if_true, eq_self_iff_true, List.mem_cons] at h
      rcases h with h1 | h2
      · exact Or.inr h1
      · exact Or.inl (List.mem_cons_of_mem _ h2)
    · simp only [assocSet, if_neg hk, List.mem_cons] at h
      rcases h with h | h
      · exact Or.inl (by rw [h]; exact List.mem_cons_self _ _)
      · rcases mem_assocSet t k v q h with h | h
        · exact Or.inl (List.mem_cons_of_mem _ h)
        · exact Or.inr h

theorem downloadAllStep_ok (archive : List (Str × Str))
    (samples : List (Str × List (Str × Str))) (name : Str)
    (hok : GroupsOk archive samples) :
    GroupsOk archive (downloadAllStep archive samples name) := by
  unfold downloadAllStep
  cases harch : assocLookup archive name with
  | none => exact hok
  | some s =>
    intro p hp
    rcases mem_assocSet _ _ _ _ hp with hp | hp
    · exact hok p hp
    · subst hp
      refine ⟨by simp, ?_⟩
      intro e he
      rw [List.mem_append] at he
      rcases he with he | he
      · cases hl : assocLookup samples (basenameStr name) with
        | none => rw [hl] at he; cases he
        | some g =>
          rw [hl] at he
          have hmem := assocLookup_mem samples (basenameStr name) g hl
          exact (hok _ hmem).2 e he
      · simp only [List.mem_singleton] at he
        subst he
        exact ⟨rfl, assocLookup_mem archive name s harch⟩

theorem downloadAll_foldl_ok (archive : List (Str × Str)) :
    ∀ (names : List Str) (samples : List (Str × List (Str × Str))),
      GroupsOk archive samples →
      GroupsOk archive (names.foldl (downloadAllStep archive) samples)
  | [], samples, hok => hok
  | name :: names, samples, hok => by
    rw [List.foldl_cons]
    exact downloadAll_foldl_ok archive names _
      (downloadAllStep_ok archive samples name hok)

/-- Counterexample to claim C5: a four-entry archive whose pairs occur in the
order `1.txt` then `2.txt`, but whose contents sort the other way round —
`download_all` emits the `2.txt` group first (Python sorts
`samples.values()`, lists of `(content, name)` pairs, so group order follows
contents), violating first-seen archive order. -/
theorem download_all_order_counterexample :
    Yukicoder.download_all ⟨some 9, none⟩
      [("test_in/1.txt".toList, "b".toList), ("test_out/1.txt".toList, "x".toList),
       ("test_in/2.txt".toList, "a".toList), ("test_out/2.txt".toList, "y".toList)] =
      [[("a".toList, "test_in/2.txt".toList), ("y".toList, "test_out/2.txt".toList)],
       [("b".toList, "test_in/1.txt".toList), ("x".toList, "test_out/1.txt".toList)]] ∧
    Yukicoder.download_all ⟨some 9, none⟩
      [("test_in/1.txt".toList, "b".toList), ("test_out/1.txt".toList, "x".toList),
       ("test_in/2.txt".toList, "a".toList), ("test_out/2.txt".toList, "y".toList)] ≠
      [[("b".toList, "test_in/1.txt".toList), ("x".toList, "test_out/1.txt".toList)],
       [("a".toList, "test_in/2.txt".toList), ("y".toList, "test_out/2.txt".toList)]] := by
  constructor
  · rfl
  · decide

/-- Claim C5 (amended): the page path (the Sample Pairing Engine) preserves
first-seen order — the emitted pairs are exactly the consecutive pairs of the
block sequence; the archive path groups entries by matching base file name
(each emitted group is nonempty and consists of archive entries sharing one
base name), but emits the groups sorted by Python's list comparison of their
`(content, name)` pairs — not in first-seen archive order. -/
theorem download_order_characterization (bs : List (Str × Str)) (y : Yukicoder)
    (archive : List (Str × Str)) :
    ((SampleZipper.run bs).get).1 = chunkPairs bs ∧
    List.Sorted (fun a b => pyGroupLe a b = true) (y.download_all archive) ∧
    (∀ g ∈ y.download_all archive, g ≠ [] ∧
      ∃ base, ∀ e ∈ g, basenameStr e.2 = base ∧ (e.2, e.1) ∈ archive) := by
  refine ⟨?_, ?_, ?_⟩
  · have hdata := (sampleZipper_run_data bs).1
    unfold SampleZipper.get
    cases (SampleZipper.run bs).dangling <;> exact hdata
  · haveI instTot : IsTotal (List (Str × Str)) (fun a b => pyGroupLe a b = true) :=
      ⟨pyGroupLe_total⟩
    haveI instTr : IsTrans (List (Str × Str)) (fun a b => pyGroupLe a b = true) :=
      ⟨pyGroupLe_trans⟩
    exact List.sorted_insertionSort _ _
  · intro g hg
    have hmem : g ∈ (((List.insertionSort (fun a b => pyStrLe a b = true)
        (archive.map Prod.fst)).foldl (downloadAllStep archive) []).map
          Prod.snd) :=
      (List.perm_insertionSort _ _).mem_iff.1 hg
    obtain ⟨p, hp, hpg⟩ := List.mem_map.1 hmem
    have hok := downloadAll_foldl_ok archive
      (List.insertionSort (fun a b => pyStrLe a b = true) (archive.map Prod.fst))
      [] (by intro q hq; cases hq)
    obtain ⟨hne, hprops⟩ := hok p hp
    subst hpg
    exact ⟨hne, p.1, hprops⟩

/-- Witness for the amended C5 on the counterexample archive: every emitted
group consists of archive entries sharing one base name. -/
theorem download_order_characterization_witness :
    ∀ g ∈ Yukicoder.download_all ⟨some 9, none⟩
      [("test_in/1.txt".toList, "b".toList), ("test_out/1.txt".toList, "x".toList),
       ("test_in/2.txt".toList, "a".toList), ("test_out/2.txt".toList, "y".toList)],
      g ≠ [] ∧ ∃ base, ∀ e ∈ g, basenameStr e.2 = base ∧
        (e.2, e.1) ∈ [("test_in/1.txt".toList, "b".toList),
          ("test_out/1.txt".toList, "x".toList),
          ("test_in/2.txt".toList, "a".toList),
          ("test_out/2.txt".toList, "y".toList)] :=
  (download_order_characterization [] ⟨some 9, none⟩ _).2.2

/-! ### `splitOnCh`, `joinSlash` and `posixSplit` lemmas -/

theorem splitOnCh_sep (c : Char) (xs : Str) :
    splitOnCh c (c :: xs) = [] :: splitOnCh c xs := by
  simp [splitOnCh]

theorem splitOnCh_ne_nil : ∀ (c : Char) (l : Str), splitOnCh c l ≠ []
  | c, [] => by simp [splitOnCh]
  | c, x :: xs => by
    by_cases h : x = c
    · subst h
      rw [splitOnCh_sep]
      simp
    · simp only [splitOnCh, if_neg h]
      cases hs : splitOnCh c xs with
      | nil => simp
      | cons a t => simp

theorem splitOnCh_nosep : ∀ (c : Char) (l : Str), (∀ x ∈ l, x ≠ c) →
    splitOnCh c l = [l]
  | c, [], _ => rfl
  | c, x :: xs, h => by
    simp only [splitOnCh, if_neg (h x (by simp))]
    rw [splitOnCh_nosep c xs (fun y hy => h y (by simp [hy]))]

theorem splitOnCh_append_sep : ∀ (c : Char) (l r : Str), (∀ x ∈ l, x ≠ c) →
    splitOnCh c (l ++ c :: r) = l :: splitOnCh c r
  | c, [], r, _ => by
    rw [List.nil_append, splitOnCh_sep]
  | c, x :: xs, r, h => by
    rw [List.cons_append]
    simp only [splitOnCh, if_neg (h x (by simp))]
    rw [splitOnCh_append_sep c xs r (fun y hy => h y (by simp [hy]))]

theorem mem_splitOnCh_no_sep : ∀ (c : Char) (l x : Str), x ∈ splitOnCh c l →
    ∀ ch ∈ x, ch ≠ c
  | c, [], x, hx => by
    simp only [splitOnCh, List.mem_singleton] at hx
    subst hx
    intro ch hch
    cases hch
  | c, y :: ys, x, hx => by
    by_cases h : y = c
    · rw [h] at hx
      rw [splitOnCh_sep] at hx
      rcases List.mem_cons.1 hx with h1 | h1
      · subst h1; intro ch hch; cases hch
      · exact mem_splitOnCh_no_sep c ys x h1
    · simp only [splitOnCh, if_neg h] at hx
      cases hs : splitOnCh c ys with
      | nil => exact absurd hs (splitOnCh_ne_nil c ys)
      | cons a t =>
        rw [hs] at hx
        rcases List.mem_cons.1 hx with h1 | h1
        · subst h1
          intro ch hch
          rcases List.mem_cons.1 hch with rfl | hch
          · exact h
          · exact mem_splitOnCh_no_sep c ys a (by rw [hs]; simp) ch hch
        · exact mem_splitOnCh_no_sep c ys x (by rw [hs]; simp [h1])

theorem mem_splitOnCh_sub : ∀ (c : Char) (l x : Str), x ∈ splitOnCh c l →
    ∀ ch ∈ x, ch ∈ l
  | c, [], x, hx => by
    simp only [splitOnCh, List.mem_singleton] at hx
    subst hx
    intro ch hch
    cases hch
  | c, y :: ys, x, hx => by
    by_cases h : y = c
    · rw [h] at hx
      rw [splitOnCh_sep] at hx
      rcases List.mem_cons.1 hx with h1 | h1
      · subst h1; intro ch hch; cases hch
      · intro ch hch
        exact List.mem_cons_of_mem _ (mem_splitOnCh_sub c ys x h1 ch hch)
    · simp only [splitOnCh, if_neg h] at hx
      cases hs : splitOnCh c ys with
      | nil => exact absurd hs (splitOnCh_ne_nil c ys)
      | cons a t =>
        rw [hs] at hx
        rcases List.mem_cons.1 hx with h1 | h1
        · subst h1
          intro ch hch
          rcases List.mem_cons.1 hch with rfl | hch
          · simp
          · exact List.mem_cons_of_mem _
              (mem_splitOnCh_sub c ys a (by rw [hs]; simp) ch hch)
        · intro ch hch
          exact List.mem_cons_of_mem _
            (mem_splitOnCh_sub c ys x (by rw [hs]; simp [h1]) ch hch)

theorem joinSlash_concat : ∀ (init : List Str) (lastC : Str),
    joinSlash (init ++ [lastC]) =
      if init = [] then lastC else joinSlash init ++ '/' :: lastC
  | [], lastC => by simp [joinSlash]
  | [c], lastC => by simp [joinSlash]
  | c :: d :: t, lastC => by
    have h1 : joinSlash ((c :: d :: t) ++ [lastC]) =
        c ++ '/' :: joinSlash ((d :: t) ++ [lastC]) := by
      simp [joinSlash]
    rw [h1, joinSlash_concat (d :: t) lastC]
    simp [joinSlash]

theorem joinSlash_chars : ∀ (comps : List Str), ∀ ch ∈ joinSlash comps,
    ch = '/' ∨ ∃ x ∈ comps, ch ∈ x
  | [], ch, hch => by cases hch
  | [c], ch, hch => Or.inr ⟨c, by simp, hch⟩
  | c :: d :: t, ch, hch => by
    have h1 : joinSlash (c :: d :: t) = c ++ '/' :: joinSlash (d :: t) := by
      simp [joinSlash]
    rw [h1] at hch
    rcases List.mem_append.1 hch with h2 | h2
    · exact Or.inr ⟨c, by simp, h2⟩
    · rcases List.mem_cons.1 h2 with rfl | h2
      · exact Or.inl rfl
      · rcases joinSlash_chars (d :: t) ch h2 with h3 | ⟨x, hx, hchx⟩
        · exact Or.inl h3
        · exact Or.inr ⟨x, List.mem_cons_of_mem _ hx, hchx⟩

theorem joinSlash_last_not_slash : ∀ (comps : List Str), comps ≠ [] →
    (∀ x ∈ comps, x ≠ [] ∧ ∀ ch ∈ x, ch ≠ '/') →
    ∃ d ds, (joinSlash comps).reverse = d :: ds ∧ d ≠ '/'
  | [], h, _ => absurd rfl h
  | [c], _, hx => by
    obtain ⟨hne, hns⟩ := hx c (by simp)
    cases hc : c.reverse with
    | nil => exact absurd (by simpa using hc) hne
    | cons d ds =>
      refine ⟨d, ds, by simpa [joinSlash] using hc, ?_⟩
      exact hns d (List.mem_reverse.1 (by rw [hc]; simp))
  | c :: e :: t, _, hx => by
    obtain ⟨d, ds, hrev, hd⟩ := joinSlash_last_not_slash (e :: t) (by simp)
      (fun y hy => hx y (List.mem_cons_of_mem _ hy))
    have h1 : joinSlash (c :: e :: t) = c ++ '/' :: joinSlash (e :: t) := by
      simp [joinSlash]
    refine ⟨d, ds ++ '/' :: c.reverse, ?_, hd⟩
    rw [h1, List.reverse_append, List.reverse_cons, hrev]
    simp

theorem posixSplit_snd_no_slash (p : Str) : ∀ ch ∈ (posixSplit p).2, ch ≠ '/' := by
  intro ch hch
  unfold posixSplit at hch
  simp only at hch
  have h1 := List.mem_takeWhile_imp (List.mem_reverse.1 hch)
  simpa using h1

theorem posixSplit_noslash (s : Str) (h : ∀ ch ∈ s, ch ≠ '/') :
    posixSplit s = ([], s) := by
  unfold posixSplit
  have ht : s.reverse.takeWhile (· ≠ '/') = s.reverse :=
    takeWhile_all _ _ (fun c hc => by
      simpa using h c (List.mem_reverse.1 hc))
  have hd : s.reverse.dropWhile (· ≠ '/') = [] :=
    dropWhile_all_none _ _ (fun c hc => by
      simpa using h c (List.mem_reverse.1 hc))
  rw [ht, hd]
  simp

theorem posixSplit_append (A lastC : Str) (hA : A.reverse.head? = some '/')
    (hlast : ∀ ch ∈ lastC, ch ≠ '/') :
    posixSplit (A ++ lastC) =
      ((if A.all (· = '/') then A
        else (A.reverse.dropWhile (· = '/')).reverse), lastC) := by
  obtain ⟨arest, harev⟩ : ∃ t, A.reverse = '/' :: t := by
    cases hr : A.reverse with
    | nil => rw [hr] at hA; cases hA
    | cons d t =>
      rw [hr] at hA
      simp only [List.head?_cons, Option.some.injEq] at hA
      exact ⟨t, by rw [hA]⟩
  unfold posixSplit
  rw [List.reverse_append]
  have htake : (lastC.reverse ++ A.reverse).takeWhile (· ≠ '/') = lastC.reverse := by
    rw [takeWhile_append_all _ _ _ (fun c hc => by
      simpa using hlast c (List.mem_reverse.1 hc))]
    rw [harev, takeWhile_cons_neg _ _ _ (by simp)]
    simp
  have hdrop : (lastC.reverse ++ A.reverse).dropWhile (· ≠ '/') = A.reverse := by
    rw [dropWhile_append_all _ _ _ (fun c hc => by
      simpa using hlast c (List.mem_reverse.1 hc))]
    rw [harev, dropWhile_cons_neg _ _ _ (by simp)]
  rw [htake, hdrop, List.reverse_reverse, List.reverse_reverse]
  have hAne : A ≠ [] := by
    intro hcon
    rw [hcon] at harev
    cases harev
  show ((if A ≠ [] ∧ ¬ (A.all fun x => decide (x = '/')) = true then
      (List.dropWhile (fun x => decide (x = '/')) A.reverse).reverse
    else A), lastC) = _
  by_cases hall : (A.all fun x => decide (x = '/')) = true
  · rw [if_neg (fun hcon => hcon.2 hall), if_pos hall]
  · rw [if_pos ⟨hAne, hall⟩, if_neg hall]

theorem mem_takeWhile_mem (p : α → Bool) : ∀ (l : List α) (x : α),
    x ∈ l.takeWhile p → x ∈ l
  | [], x, hx => by cases hx
  | a :: l, x, hx => by
    rw [List.takeWhile_cons] at hx
    by_cases h : p a = true
    · rw [if_pos h] at hx
      rcases List.mem_cons.1 hx with rfl | hx
      · simp
      · exact List.mem_cons_of_mem _ (mem_takeWhile_mem p l x hx)
    · rw [if_neg h] at hx
      cases hx

theorem posixSplit_snd_sub (p : Str) : ∀ ch ∈ (posixSplit p).2, ch ∈ p := by
  intro ch hch
  unfold posixSplit at hch
  simp only at hch
  exact List.mem_reverse.1 (mem_takeWhile_mem _ _ _ (List.mem_reverse.1 hch))

theorem normComp_fold_mem (k : Nat) : ∀ (comps acc : List Str),
    ∀ x ∈ List.foldl (normComp k) acc comps,
      x ∈ acc ∨ (x ∈ comps ∧ x ≠ [] ∧ x ≠ ['.'])
  | [], acc, x, hx => Or.inl hx
  | c :: cs, acc, x, hx => by
    rw [List.foldl_cons] at hx
    rcases normComp_fold_mem k cs (normComp k acc c) x hx with h | ⟨h1, h2⟩
    · unfold normComp at h
      by_cases g1 : c = [] ∨ c = ['.']
      · rw [if_pos g1] at h
        exact Or.inl h
      · rw [if_neg g1] at h
        push_neg at g1
        by_cases g2 : c ≠ ['.', '.'] ∨ (k = 0 ∧ acc = []) ∨
            acc.head? = some ['.', '.']
        · rw [if_pos g2] at h
          rcases List.mem_cons.1 h with rfl | h
          · exact Or.inr ⟨by simp, g1.1, g1.2⟩
          · exact Or.inl h
        · rw [if_neg g2] at h
          cases acc with
          | nil => exact absurd h (by intro hcon; cases hcon)
          | cons a t =>
            have h3 : x ∈ t := h
            exact Or.inl (List.mem_cons_of_mem _ h3)
    · exact Or.inr ⟨List.mem_cons_of_mem _ h1, h2⟩

theorem normComp_fold_no_dotdot (k : Nat) (hk : k ≠ 0) : ∀ (comps acc : List Str),
    (∀ x ∈ acc, x ≠ ['.', '.']) →
    ∀ x ∈ List.foldl (normComp k) acc comps, x ≠ ['.', '.']
  | [], acc, hacc, x, hx => hacc x hx
  | c :: cs, acc, hacc, x, hx => by
    rw [List.foldl_cons] at hx
    refine normComp_fold_no_dotdot k hk cs (normComp k acc c) ?_ x hx
    intro y hy
    unfold normComp at hy
    by_cases g1 : c = [] ∨ c = ['.']
    · rw [if_pos g1] at hy
      exact hacc y hy
    · rw [if_neg g1] at hy
      by_cases g2 : c ≠ ['.', '.'] ∨ (k = 0 ∧ acc = []) ∨
          acc.head? = some ['.', '.']
      · rw [if_pos g2] at hy
        rcases List.mem_cons.1 hy with rfl | hy
        · rcases g2 with g2 | g2 | g2
          · exact g2
          · exact absurd g2.1 hk
          · exfalso
            cases acc with
            | nil => cases g2
            | cons a t =>
              simp only [List.head?_cons, Option.some.injEq] at g2
              exact hacc a (by simp) g2
        · exact hacc y hy
      · rw [if_neg g2] at hy
        cases acc with
        | nil => exact absurd hy (by intro hcon; cases hcon)
        | cons a t =>
          have h3 : y ∈ t := hy
          exact hacc y (List.mem_cons_of_mem _ h3)

theorem normpath_comps_good (p : Str) (k : Nat) :
    ∀ x ∈ (List.foldl (normComp k) [] (splitOnCh '/' p)).reverse,
      x ≠ [] ∧ x ≠ ['.'] ∧ (k ≠ 0 → x ≠ ['.', '.']) ∧
        ∀ ch ∈ x, ch ≠ '/' ∧ ch ∈ p := by
  intro x hx
  have hx' := List.mem_reverse.1 hx
  rcases normComp_fold_mem k (splitOnCh '/' p) [] x hx' with h | ⟨h1, h2, h3⟩
  · cases h
  · refine ⟨h2, h3, ?_, ?_⟩
    · intro hk0
      exact normComp_fold_no_dotdot k hk0 (splitOnCh '/' p) []
        (by intro y hy; cases hy) x hx'
    · intro ch hch
      exact ⟨mem_splitOnCh_no_sep '/' p x h1 ch hch,
        mem_splitOnCh_sub '/' p x h1 ch hch⟩

theorem structure_if (p : Str) (k : Nat) (hk : k ≤ 2) :
    (if List.replicate k '/' ++
        joinSlash ((List.foldl (normComp k) [] (splitOnCh '/' p)).reverse) = []
      then (['.'] : Str)
      else List.replicate k '/' ++
        joinSlash ((List.foldl (normComp k) [] (splitOnCh '/' p)).reverse))
      = ['.'] ∨
    ∃ kk comps,
      (if List.replicate k '/' ++
          joinSlash ((List.foldl (normComp k) [] (splitOnCh '/' p)).reverse) = []
        then (['.'] : Str)
        else List.replicate k '/' ++
          joinSlash ((List.foldl (normComp k) [] (splitOnCh '/' p)).reverse))
        = List.replicate kk '/' ++ joinSlash comps ∧
      kk ≤ 2 ∧ (kk = 0 → comps ≠ []) ∧
      ∀ x ∈ comps, x ≠ [] ∧ x ≠ ['.'] ∧ (kk ≠ 0 → x ≠ ['.', '.']) ∧
        ∀ ch ∈ x, ch ≠ '/' ∧ ch ∈ p := by
  by_cases hj : List.replicate k '/' ++
      joinSlash ((List.foldl (normComp k) [] (splitOnCh '/' p)).reverse) = []
  · rw [if_pos hj]
    exact Or.inl rfl
  · rw [if_neg hj]
    refine Or.inr ⟨k, (List.foldl (normComp k) [] (splitOnCh '/' p)).reverse,
      rfl, hk, ?_, normpath_comps_good p k⟩
    intro hk0 hcon
    rw [hcon, hk0] at hj
    exact hj (by simp [joinSlash])

theorem posixNormpath_structure (p : Str) :
    posixNormpath p = ['.'] ∨
    ∃ k comps, posixNormpath p = List.replicate k '/' ++ joinSlash comps ∧
      k ≤ 2 ∧ (k = 0 → comps ≠ []) ∧
      ∀ x ∈ comps, x ≠ [] ∧ x ≠ ['.'] ∧ (k ≠ 0 → x ≠ ['.', '.']) ∧
        ∀ ch ∈ x, ch ≠ '/' ∧ ch ∈ p := by
  by_cases hp : p = []
  · left
    rw [hp]
    rfl
  · have h2 : posixNormpath p =
        (if List.replicate
            (if startsWithStr p "//".toList ∧ ¬ startsWithStr p "///".toList
              then 2 else if startsWithStr p "/".toList then 1 else 0) '/' ++
            joinSlash ((List.foldl (normComp
              (if startsWithStr p "//".toList ∧ ¬ startsWithStr p "///".toList
                then 2 else if startsWithStr p "/".toList then 1 else 0)) []
              (splitOnCh '/' p)).reverse) = []
          then (['.'] : Str)
          else List.replicate
            (if startsWithStr p "//".toList ∧ ¬ startsWithStr p "///".toList
              then 2 else if startsWithStr p "/".toList then 1 else 0) '/' ++
            joinSlash ((List.foldl (normComp
              (if startsWithStr p "//".toList ∧ ¬ startsWithStr p "///".toList
                then 2 else if startsWithStr p "/".toList then 1 else 0)) []
              (splitOnCh '/' p)).reverse)) := by
      simp only [posixNormpath]
      rw [if_neg hp]
    rw [h2]
    refine structure_if p _ ?_
    by_cases a : startsWithStr p "//".toList ∧ ¬ startsWithStr p "///".toList
    · rw [if_pos a]
    · rw [if_neg a]
      by_cases b : startsWithStr p "/".toList
      · rw [if_pos b]
        omega
      · rw [if_neg b]
        omega

theorem posixNormpath_chars (p : Str) : ∀ ch ∈ posixNormpath p,
    ch = '/' ∨ ch = '.' ∨ ch ∈ p := by
  rcases posixNormpath_structure p with h | ⟨k, comps, h, _, _, hcomps⟩
  · rw [h]
    intro ch hch
    rcases List.mem_singleton.1 hch with rfl
    exact Or.inr (Or.inl rfl)
  · rw [h]
    intro ch hch
    rcases List.mem_append.1 hch with h1 | h1
    · exact Or.inl (List.eq_of_mem_replicate h1)
    · rcases joinSlash_chars comps ch h1 with h2 | ⟨x, hx, hchx⟩
      · exact Or.inl h2
      · exact Or.inr (Or.inr ((hcomps x hx).2.2.2 ch hchx).2)

theorem joinSlash_head (c : Str) (rest : List Str) :
    ∃ t, joinSlash (c :: rest) = c ++ t := by
  cases rest with
  | nil => exact ⟨[], by simp [joinSlash]⟩
  | cons d t => exact ⟨'/' :: joinSlash (d :: t), by simp [joinSlash]⟩

theorem posixNormpath_abs (dir base : Str)
    (hd1 : dir ≠ []) (hd2 : dir ≠ ['.']) (hd3 : dir ≠ ['.', '.'])
    (hd4 : ∀ ch ∈ dir, ch ≠ '/')
    (hb1 : base ≠ []) (hb2 : base ≠ ['.']) (hb3 : base ≠ ['.', '.'])
    (hb4 : ∀ ch ∈ base, ch ≠ '/') :
    posixNormpath ('/' :: dir ++ '/' :: base) = '/' :: dir ++ '/' :: base := by
  have hpne : ('/' :: dir ++ '/' :: base) ≠ [] := by simp
  have hstart2 : ¬ (startsWithStr ('/' :: dir ++ '/' :: base) "//".toList = true) := by
    intro hcon
    obtain ⟨t, ht⟩ := (startsWithStr_iff_exists _ _).1 hcon
    cases dir with
    | nil => exact hd1 rfl
    | cons d ds =>
      have ht' : '/' :: d :: (ds ++ '/' :: base) = '/' :: '/' :: t := ht
      simp only [List.cons.injEq] at ht'
      exact hd4 d (by simp) ht'.2.1
  have hstart1 : startsWithStr ('/' :: dir ++ '/' :: base) "/".toList = true :=
    startsWithStr_prefix "/".toList (dir ++ '/' :: base)
  have hsplit : splitOnCh '/' ('/' :: dir ++ '/' :: base) = [[], dir, base] := by
    rw [show ('/' :: dir ++ '/' :: base : Str) = '/' :: (dir ++ '/' :: base) from
      by simp]
    rw [splitOnCh_sep, splitOnCh_append_sep '/' dir base hd4,
      splitOnCh_nosep '/' base hb4]
  have hfold : List.foldl (normComp 1) [] [[], dir, base] = [base, dir] := by
    simp only [List.foldl_cons, List.foldl_nil]
    have e1 : normComp 1 [] [] = [] := by
      unfold normComp
      rw [if_pos (Or.inl rfl)]
    rw [e1]
    have e2 : normComp 1 [] dir = [dir] := by
      unfold normComp
      rw [if_neg (fun hcon => hcon.elim hd1 hd2), if_pos (Or.inl hd3)]
    rw [e2]
    have e3 : normComp 1 [dir] base = [base, dir] := by
      unfold normComp
      rw [if_neg (fun hcon => hcon.elim hb1 hb2), if_pos (Or.inl hb3)]
    rw [e3]
  simp only [posixNormpath]
  rw [if_neg hpne]
  have hK : (if startsWithStr ('/' :: dir ++ '/' :: base) "//".toList ∧
        ¬ startsWithStr ('/' :: dir ++ '/' :: base) "///".toList then 2
      else if startsWithStr ('/' :: dir ++ '/' :: base) "/".toList then 1
      else 0) = 1 := by
    rw [if_neg (fun hcon => hstart2 hcon.1), if_pos hstart1]
  rw [hK, hsplit, hfold]
  simp [joinSlash]

theorem posixSplit_abs (dir base : Str) (hd1 : dir ≠ [])
    (hd4 : ∀ ch ∈ dir, ch ≠ '/') (hb4 : ∀ ch ∈ base, ch ≠ '/') :
    posixSplit ('/' :: dir ++ '/' :: base) = ('/' :: dir, base) := by
  have hassoc : ('/' :: dir ++ ['/']) ++ base = '/' :: dir ++ '/' :: base := by
    simp
  have hA : (('/' :: dir ++ ['/']) : Str).reverse.head? = some '/' := by
    simp
  have h := posixSplit_append ('/' :: dir ++ ['/']) base hA hb4
  rw [hassoc] at h
  rw [h]
  have hall : (('/' :: dir ++ ['/']).all (· = '/')) = false := by
    cases dir with
    | nil => exact absurd rfl hd1
    | cons d ds =>
      have hd : d ≠ '/' := hd4 d (by simp)
      simp [List.all_cons, hd]
  rw [if_neg (by rw [hall]; intro hcon; cases hcon)]
  have hrev : ('/' :: dir ++ ['/'] : Str).reverse = '/' :: (dir.reverse ++ ['/']) := by
    simp
  rw [hrev]
  have hpos : (fun x => decide (x = '/')) '/' = true := by decide
  rw [List.dropWhile_cons]
  rw [if_pos hpos]
  cases hrd : dir.reverse with
  | nil => exact absurd (by simpa using hrd) hd1
  | cons e es =>
    have he : e ≠ '/' := hd4 e (List.mem_reverse.1 (by rw [hrd]; simp))
    rw [List.cons_append, dropWhile_cons_neg _ _ _ (by simp [he]),
      ← List.cons_append, ← hrd]
    simp

theorem posixSplit_normpath_eq (path dir0 b : Str)
    (hd0 : dir0 ≠ []) (hd0s : ∀ ch ∈ dir0, ch ≠ '/')
    (h1 : (posixSplit (posixNormpath path)).1 = '/' :: dir0)
    (h2 : (posixSplit (posixNormpath path)).2 = b) (hb : b ≠ []) :
    posixNormpath path = '/' :: dir0 ++ '/' :: b ∧
      b ≠ ['.'] ∧ b ≠ ['.', '.'] ∧ ∀ ch ∈ b, ch ≠ '/' ∧ ch ∈ path := by
  rcases posixNormpath_structure path with hnp | ⟨k, comps, hnp, hk2, hk0, hcomps⟩
  · rw [hnp, posixSplit_noslash ['.'] (by decide)] at h1
    simp at h1
  · rcases comps.eq_nil_or_concat with rfl | ⟨init, last, rfl⟩
    · rw [hnp] at h2
      have hjoin : joinSlash ([] : List Str) = [] := rfl
      rw [hjoin, List.append_nil] at h2
      have hsplit2 : (posixSplit (List.replicate k '/')).2 = [] := by
        cases k with
        | zero =>
          rw [List.replicate_zero, posixSplit_noslash [] (by intro ch hch; cases hch)]
        | succ m =>
          unfold posixSplit
          simp only
          rw [List.reverse_replicate]
          rw [show List.replicate (m + 1) '/' = '/' :: List.replicate m '/' from rfl]
          rw [takeWhile_cons_neg _ _ _ (by decide)]
          rfl
      rw [hsplit2] at h2
      exact absurd h2.symm hb
    · simp only [List.concat_eq_append] at hnp hk0 hcomps
      by_cases hinit : init = []
      · subst hinit
        rw [hnp] at h1
        have hjoin : joinSlash ([] ++ [last]) = last := by simp [joinSlash]
        rw [hjoin] at h1
        have hlastgood := hcomps last (by simp)
        cases k with
        | zero =>
          rw [List.replicate_zero, List.nil_append,
            posixSplit_noslash last (fun ch hch => (hlastgood.2.2.2 ch hch).1)] at h1
          simp at h1
        | succ m =>
          have hA : ((List.replicate (m + 1) '/' : Str)).reverse.head? = some '/' := by
            rw [List.reverse_replicate]
            rw [show List.replicate (m + 1) '/' = '/' :: List.replicate m '/' from rfl]
            rfl
          have happ := posixSplit_append (List.replicate (m + 1) '/') last hA
            (fun ch hch => (hlastgood.2.2.2 ch hch).1)
          rw [if_pos (by
            rw [List.all_eq_true]
            intro x hx
            simp [List.eq_of_mem_replicate hx])] at happ
          rw [happ] at h1
          simp only at h1
          have hm : m = 0 := by
            rcases Nat.lt_or_ge m 1 with hm | hm
            · omega
            · exfalso
              have : List.replicate (m + 1) '/' =
                  '/' :: '/' :: List.replicate (m - 1) '/' := by
                rw [show m + 1 = (m - 1) + 2 from by omega]
                rfl
              rw [this] at h1
              injection h1 with e1 e2
              have : '/' ∈ dir0 := by rw [← e2]; simp
              exact hd0s '/' this rfl
          rw [hm] at h1
          refine absurd ?_ hd0
          have h1' : ('/' : Char) :: ([] : Str) = '/' :: dir0 := h1
          simp only [List.cons.injEq] at h1'
          exact h1'.2.symm
      · obtain ⟨i0, irest, rfl⟩ : ∃ i0 irest, init = i0 :: irest := by
          cases init with
          | nil => exact absurd rfl hinit
          | cons a t => exact ⟨a, t, rfl⟩
        have hi0 := hcomps i0 (by simp)
        obtain ⟨c0, c0rest, rfl⟩ : ∃ c0 c0rest, i0 = c0 :: c0rest := by
          cases i0 with
          | nil => exact absurd rfl hi0.1
          | cons a t => exact ⟨a, t, rfl⟩
        have hc0 : c0 ≠ '/' := (hi0.2.2.2 c0 (by simp)).1
        have hlastgood := hcomps last (by simp)
        have hjc := joinSlash_concat ((c0 :: c0rest) :: irest) last
        rw [if_neg (by simp)] at hjc
        rw [hnp, hjc] at h1 h2
        have hassoc : List.replicate k '/' ++
            (joinSlash ((c0 :: c0rest) :: irest) ++ '/' :: last) =
            (List.replicate k '/' ++ joinSlash ((c0 :: c0rest) :: irest) ++ ['/'])
              ++ last := by
          simp
        rw [hassoc] at h1 h2
        have hA : ((List.replicate k '/' ++ joinSlash ((c0 :: c0rest) :: irest)
            ++ ['/']) : Str).reverse.head? = some '/' := by
          simp
        have happ := posixSplit_append _ last hA
          (fun ch hch => (hlastgood.2.2.2 ch hch).1)
        rw [if_neg (by
          intro hcon
          obtain ⟨t, hjh⟩ := joinSlash_head (c0 :: c0rest) irest
          have hmem : c0 ∈ List.replicate k '/' ++
              joinSlash ((c0 :: c0rest) :: irest) ++ ['/'] := by
            rw [hjh]
            simp
          have := List.all_eq_true.1 hcon c0 hmem
          simp only [decide_eq_true_eq] at this
          exact hc0 this)] at happ
        rw [happ] at h1 h2
        simp only at h1 h2
        have hrstrip : ((List.replicate k '/' ++ joinSlash ((c0 :: c0rest) :: irest)
            ++ ['/']).reverse.dropWhile (· = '/')).reverse =
            List.replicate k '/' ++ joinSlash ((c0 :: c0rest) :: irest) := by
          have hmemup : ∀ y, y ∈ (c0 :: c0rest) :: irest →
              y ∈ (c0 :: c0rest) :: irest ++ [last] := by
            intro y hy
            rcases List.mem_cons.1 hy with rfl | hy2
            · simp
            · simp [hy2]
          obtain ⟨d, ds, hjrev, hdne⟩ := joinSlash_last_not_slash
            ((c0 :: c0rest) :: irest) (by simp)
            (fun y hy => ⟨(hcomps y (hmemup y hy)).1,
              fun ch hch => ((hcomps y (hmemup y hy)).2.2.2 ch hch).1⟩)
          have hrev2 : (List.replicate k '/' ++ joinSlash ((c0 :: c0rest) :: irest)
              ++ ['/']).reverse =
              '/' :: ((joinSlash ((c0 :: c0rest) :: irest)).reverse ++
                List.replicate k '/') := by
            simp [List.reverse_append, List.reverse_replicate]
          rw [hrev2, List.dropWhile_cons, if_pos (by decide), hjrev,
            List.cons_append, dropWhile_cons_neg _ _ _ (by simp [hdne]),
            ← List.cons_append, ← hjrev]
          simp [List.reverse_append, List.reverse_replicate]
        rw [hrstrip] at h1
        interval_cases k
        · exfalso
          rw [List.replicate_zero, List.nil_append] at h1
          obtain ⟨t, hjh⟩ := joinSlash_head (c0 :: c0rest) irest
          rw [hjh] at h1
          have hc0' : c0 = '/' := by
            have h1' : c0 :: (c0rest ++ t) = '/' :: dir0 := h1
            injection h1' with e1 e2
          exact hc0 hc0'
        · have h1' : '/' :: joinSlash ((c0 :: c0rest) :: irest) = '/' :: dir0 := h1
          have hje : joinSlash ((c0 :: c0rest) :: irest) = dir0 := by
            injection h1' with e1 e2
          subst h2
          have hirest : irest = [] := by
            cases irest with
            | nil => rfl
            | cons j js =>
              exfalso
              have hjs : joinSlash ((c0 :: c0rest) :: j :: js) =
                  (c0 :: c0rest) ++ '/' :: joinSlash (j :: js) := by
                simp [joinSlash]
              have hslash : '/' ∈ dir0 := by
                rw [← hje, hjs]
                simp
              exact hd0s '/' hslash rfl
          subst hirest
          have hje2 : (c0 :: c0rest) = dir0 := by
            simpa [joinSlash] using hje
          refine ⟨?_, hlastgood.2.1, hlastgood.2.2.1 (by omega), ?_⟩
          · rw [hnp, hjc, hje2]
            simp [joinSlash]
          · exact fun ch hch => hlastgood.2.2.2 ch hch
        · exfalso
          have h1' : '/' :: '/' :: joinSlash ((c0 :: c0rest) :: irest) =
              '/' :: dir0 := h1
          injection h1' with e1 e2
          have : '/' ∈ dir0 := by rw [← e2]; simp
          exact hd0s '/' this rfl

theorem urlparse_http (host ptail : Str)
    (hh : ∀ ch ∈ host, netlocCh ch = true)
    (hp : ∀ ch ∈ ptail, ch ≠ '#' ∧ ch ≠ '?') :
    urlparse ("http://".toList ++ (host ++ '/' :: ptail)) =
      ⟨"http".toList, host, '/' :: ptail, [], []⟩ := by
  have hs0 : ("http://".toList ++ (host ++ '/' :: ptail)) =
      'h' :: 't' :: 't' :: 'p' :: ':' :: '/' :: '/' :: (host ++ '/' :: ptail) := rfl
  rw [hs0]
  simp only [urlparse]
  have hpre : (('h' :: 't' :: 't' :: 'p' :: ':' :: '/' :: '/' ::
      (host ++ '/' :: ptail)).takeWhile (· ≠ ':')) = ['h', 't', 't', 'p'] := by
    simp [List.takeWhile_cons]
  rw [hpre]
  have hok : (decide ((['h', 't', 't', 'p'] : Str).length <
        ('h' :: 't' :: 't' :: 'p' :: ':' :: '/' :: '/' ::
          (host ++ '/' :: ptail)).length) &&
      'h'.isAlpha && (['h', 't', 't', 'p'] : Str).all isSchemeCh) = true := by
    simp only [Bool.and_eq_true, decide_eq_true_eq]
    refine ⟨⟨?_, by decide⟩, by decide⟩
    simp [List.length_append, List.length_cons]
  simp only [hok, eq_self_iff_true, if_true]
  have hdrop : List.drop ((['h', 't', 't', 'p'] : Str).length + 1)
      ('h' :: 't' :: 't' :: 'p' :: ':' :: '/' :: '/' :: (host ++ '/' :: ptail)) =
      '/' :: '/' :: (host ++ '/' :: ptail) := rfl
  simp only [hdrop]
  have hstart : startsWithStr ('/' :: '/' :: (host ++ '/' :: ptail))
      "//".toList = true :=
    startsWithStr_prefix "//".toList (host ++ '/' :: ptail)
  simp only [hstart, eq_self_iff_true, if_true]
  have hdrop2 : List.drop 2 ('/' :: '/' :: (host ++ '/' :: ptail)) =
      host ++ '/' :: ptail := rfl
  simp only [hdrop2]
  have hnet : List.takeWhile netlocCh (host ++ '/' :: ptail) = host := by
    rw [takeWhile_append_all _ _ _ hh, takeWhile_cons_neg _ _ _ (by decide)]
    simp
  have hrest2 : List.dropWhile netlocCh (host ++ '/' :: ptail) = '/' :: ptail := by
    rw [dropWhile_append_all _ _ _ hh]
    exact dropWhile_cons_neg _ _ _ (by decide)
  simp only [hnet, hrest2]
  have hpq : List.takeWhile (fun x => decide (x ≠ '#')) ('/' :: ptail) =
      '/' :: ptail := by
    apply takeWhile_all
    intro c hc
    rcases List.mem_cons.1 hc with rfl | hc
    · decide
    · simp [(hp c hc).1]
  have hfrag : List.dropWhile (fun x => decide (x ≠ '#')) ('/' :: ptail) = [] := by
    apply dropWhile_all_none
    intro c hc
    rcases List.mem_cons.1 hc with rfl | hc
    · decide
    · simp [(hp c hc).1]
  simp only [hpq, hfrag]
  have hpath : List.takeWhile (fun x => decide (x ≠ '?')) ('/' :: ptail) =
      '/' :: ptail := by
    apply takeWhile_all
    intro c hc
    rcases List.mem_cons.1 hc with rfl | hc
    · decide
    · simp [(hp c hc).2]
  have hq : List.dropWhile (fun x => decide (x ≠ '?')) ('/' :: ptail) = [] := by
    apply dropWhile_all_none
    intro c hc
    rcases List.mem_cons.1 hc with rfl | hc
    · decide
    · simp [(hp c hc).2]
  simp only [hpath, hq]
  have hlow : lowerStr ['h', 't', 't', 'p'] = "http".toList := by decide
  simp only [hlow]
  rfl

theorem mem_if_takeWhile {c : Prop} [Decidable c] (p : Char → Bool) (l : Str)
    (x : Char) (hx : x ∈ if c then l.takeWhile p else []) : p x = true := by
  by_cases h : c
  · rw [if_pos h] at hx
    exact List.mem_takeWhile_imp hx
  · rw [if_neg h] at hx
    cases hx

theorem urlparse_netloc_chars (s : Str) :
    ∀ ch ∈ (urlparse s).netloc, netlocCh ch = true := by
  intro ch hch
  simp only [urlparse] at hch
  exact mem_if_takeWhile _ _ _ hch

theorem urlparse_path_chars (s : Str) :
    ∀ ch ∈ (urlparse s).path, ch ≠ '#' ∧ ch ≠ '?' := by
  intro ch hch
  simp only [urlparse] at hch
  have hq := List.mem_takeWhile_imp hch
  have hmem := mem_takeWhile_mem _ _ _ hch
  have hh := List.mem_takeWhile_imp hmem
  simp only [decide_eq_true_eq] at hq hh
  exact ⟨hh, hq⟩

theorem isWordCh_facts (c : Char) (h : isWordCh c = true) :
    c ≠ '.' ∧ c ≠ '/' ∧ c ≠ '?' ∧ c ≠ '#' ∧ netlocCh c = true := by
  have h0 : c ≠ '.' := by rintro rfl; revert h; decide
  have h1 : c ≠ '/' := by rintro rfl; revert h; decide
  have h2 : c ≠ '?' := by rintro rfl; revert h; decide
  have h3 : c ≠ '#' := by rintro rfl; revert h; decide
  exact ⟨h0, h1, h2, h3, by simp [netlocCh, h1, h2, h3]⟩

theorem intToDec_chars (i : Int) :
    ∀ ch ∈ intToDec i, isDigitCh ch = true ∨ ch = '-' := by
  intro ch hch
  cases i with
  | ofNat n =>
    have hch' : ch ∈ natToDec n := hch
    exact Or.inl (natToDec_all_digits n ch hch')
  | negSucc n =>
    rw [show intToDec (Int.negSucc n) = '-' :: natToDec (n + 1) from rfl] at hch
    rcases List.mem_cons.1 hch with rfl | hch
    · exact Or.inr rfl
    · exact Or.inl (natToDec_all_digits _ ch hch)

theorem intToDec_base_facts (i : Int) :
    intToDec i ≠ [] ∧ intToDec i ≠ ['.'] ∧ intToDec i ≠ ['.', '.'] ∧
      ∀ ch ∈ intToDec i, ch ≠ '/' ∧ ch ≠ '#' ∧ ch ≠ '?' := by
  have hchars := intToDec_chars i
  have hne : intToDec i ≠ [] := by
    cases i with
    | ofNat n => exact natToDec_ne_nil n
    | negSucc n =>
      rw [show intToDec (Int.negSucc n) = '-' :: natToDec (n + 1) from rfl]
      simp
  have hdot : ('.' : Char) ∉ intToDec i := by
    intro hmem
    rcases hchars '.' hmem with h | h
    · exact absurd h (by decide)
    · exact absurd h (by decide)
  refine ⟨hne, ?_, ?_, ?_⟩
  · intro hcon
    exact hdot (by rw [hcon]; simp)
  · intro hcon
    exact hdot (by rw [hcon]; simp)
  · intro ch hch
    rcases hchars ch hch with h | rfl
    · have hp := isDigitCh_props ch h
      exact ⟨hp.2.2.2.1, hp.2.2.2.2.2.2.1, hp.2.2.2.2.2.1⟩
    · exact ⟨by decide, by decide, by decide⟩

theorem natToDec_not_no (n : Nat) :
    startsWithStr (natToDec n) "no/".toList = false := by
  cases hd : natToDec n with
  | nil => exact absurd hd (natToDec_ne_nil n)
  | cons d ds =>
    have hdig : isDigitCh d = true := natToDec_all_digits n d (by rw [hd]; simp)
    have hdn : d ≠ 'n' := by
      rintro rfl
      rw [show isDigitCh 'n' = false from by decide] at hdig
      cases hdig
    show startsWithStr (d :: ds) ('n' :: "o/".toList) = false
    simp [startsWithStr, hdn]

theorem matchContestsTasks_extract (q cid pid : Str)
    (h : matchContestsTasks q = some (cid, pid)) :
    cid ≠ [] ∧ (∀ ch ∈ cid, isWordCh ch = true) ∧
      pid ≠ [] ∧ ∀ ch ∈ pid, isWordCh ch = true := by
  simp only [matchContestsTasks] at h
  split at h
  · split at h
    · split at h
      · rename_i h1 h2 h3
        simp only [Option.some.injEq, Prod.mk.injEq] at h
        obtain ⟨hcid, hpid⟩ := h
        subst hcid
        subst hpid
        exact ⟨h2.1, fun ch hch => List.mem_takeWhile_imp hch, h3.1,
          fun ch hch => List.mem_takeWhile_imp hch⟩
      · cases h
    · cases h
  · cases h

theorem problem_first_extract (s : Str) (p : AtCoderProblem)
    (h : AtCoderProblem.from_url_first s = some p) :
    p.contest_id ≠ [] ∧ (∀ ch ∈ p.contest_id, netlocCh ch = true ∧ ch ≠ '.') ∧
      p.problem_id ≠ [] ∧ p.problem_id ≠ ['.'] ∧ p.problem_id ≠ ['.', '.'] ∧
      ∀ ch ∈ p.problem_id, ch ≠ '/' ∧ ch ≠ '#' ∧ ch ≠ '?' := by
  simp only [AtCoderProblem.from_url_first, normpath] at h
  split at h
  · rename_i hc
    simp only [Option.some.injEq] at h
    subst h
    obtain ⟨hscheme, hcount, hends, hcidne, hdir, hbase⟩ := hc
    have hsp := posixSplit_normpath_eq ((urlparse s).path) "tasks".toList
      ((posixSplit (posixNormpath (urlparse s).path)).2) (by decide) (by decide)
      (hdir.trans rfl) rfl hbase
    refine ⟨hcidne, ?_, hbase, hsp.2.1, hsp.2.2.1, ?_⟩
    · intro ch hch
      refine ⟨urlparse_netloc_chars s ch (mem_takeWhile_mem _ _ _ hch), ?_⟩
      have := List.mem_takeWhile_imp hch
      simpa using this
    · intro ch hch
      have h1 := (hsp.2.2.2 ch hch).1
      have h2 := urlparse_path_chars s ch ((hsp.2.2.2 ch hch).2)
      exact ⟨h1, h2.1, h2.2⟩
  · cases h

theorem problem_reconstruct (cid pid : Str)
    (hc1 : cid ≠ []) (hc2 : ∀ ch ∈ cid, netlocCh ch = true ∧ ch ≠ '.')
    (hp1 : pid ≠ []) (hp2 : pid ≠ ['.']) (hp3 : pid ≠ ['.', '.'])
    (hp4 : ∀ ch ∈ pid, ch ≠ '/' ∧ ch ≠ '#' ∧ ch ≠ '?') :
    AtCoderProblem.from_url (AtCoderProblem.get_url ⟨cid, pid⟩) =
      some ⟨cid, pid⟩ := by
  have hurl : AtCoderProblem.get_url ⟨cid, pid⟩ =
      "http://".toList ++ ((cid ++ ".contest.atcoder.jp".toList) ++
        '/' :: ("tasks/".toList ++ pid)) := by
    simp only [AtCoderProblem.get_url]
    rw [show (".contest.atcoder.jp/tasks/".toList : Str) =
      ".contest.atcoder.jp".toList ++ '/' :: "tasks/".toList from rfl]
    simp [List.append_assoc]
  have hup := urlparse_http (cid ++ ".contest.atcoder.jp".toList)
      ("tasks/".toList ++ pid)
      (by
        intro ch hch
        rcases List.mem_append.1 hch with hch2 | hch2
        · exact (hc2 ch hch2).1
        · exact (by decide : ∀ c ∈ (".contest.atcoder.jp".toList : Str),
            netlocCh c = true) ch hch2)
      (by
        intro ch hch
        rcases List.mem_append.1 hch with hch2 | hch2
        · exact (by decide : ∀ c ∈ ("tasks/".toList : Str),
            c ≠ '#' ∧ c ≠ '?') ch hch2
        · exact ⟨(hp4 ch hch2).2.1, (hp4 ch hch2).2.2⟩)
  have htw : (cid ++ ".contest.atcoder.jp".toList).takeWhile (· ≠ '.') = cid := by
    rw [takeWhile_append_all _ _ _ (fun c hc => by simp [(hc2 c hc).2])]
    rw [show (".contest.atcoder.jp".toList : Str) =
      '.' :: "contest.atcoder.jp".toList from rfl]
    rw [takeWhile_cons_neg _ _ _ (by decide)]
    simp
  have hcount : (cid ++ ".contest.atcoder.jp".toList).count '.' = 3 := by
    rw [List.count_append]
    have hc0 : cid.count '.' = 0 :=
      List.count_eq_zero.2 (fun hmem => (hc2 '.' hmem).2 rfl)
    rw [hc0]
    decide
  have hfirst : AtCoderProblem.from_url_first
      ("http://".toList ++ ((cid ++ ".contest.atcoder.jp".toList) ++
        '/' :: ("tasks/".toList ++ pid))) = some ⟨cid, pid⟩ := by
    simp only [AtCoderProblem.from_url_first, normpath]
    rw [hup]
    simp only
    rw [show ('/' :: ("tasks/".toList ++ pid) : Str) =
      '/' :: "tasks".toList ++ '/' :: pid from rfl]
    rw [posixNormpath_abs "tasks".toList pid (by decide) (by decide) (by decide)
      (by decide) hp1 hp2 hp3 (fun ch hch => (hp4 ch hch).1)]
    rw [posixSplit_abs "tasks".toList pid (by decide) (by decide)
      (fun ch hch => (hp4 ch hch).1)]
    simp only
    rw [htw]
    rw [if_pos ⟨Or.inr (Or.inl trivial), hcount, endsWithStr_append _ _, hc1,
      rfl, hp1⟩]
  rw [hurl]
  simp only [AtCoderProblem.from_url, hfirst]

theorem submission_second_none (s : Str) (q : Option Str) :
    AtCoderSubmission.from_url_second s q = none := by
  simp only [AtCoderSubmission.from_url_second]
  cases hm : matchContestsSubmissions (normpath (urlparse s).path) with
  | none => rfl
  | some pr =>
    obtain ⟨cid, ds⟩ := pr
    simp only
    rw [if_neg (fun hcon => Bool.false_ne_true hcon.2)]

theorem submission_from_url_eq_first (s : Str) (q : Option Str)
    (sub : AtCoderSubmission) (h : AtCoderSubmission.from_url s q = some sub) :
    AtCoderSubmission.from_url_first s q = some sub := by
  unfold AtCoderSubmission.from_url at h
  cases hf : AtCoderSubmission.from_url_first s q with
  | some sub2 =>
    rw [hf] at h
    have h2 : some sub2 = some sub := h
    exact h2
  | none =>
    rw [hf] at h
    have h2 : AtCoderSubmission.from_url_second s q = some sub := h
    rw [submission_second_none] at h2
    cases h2

theorem submission_first_extract (s : Str) (q : Option Str)
    (sub : AtCoderSubmission)
    (h : AtCoderSubmission.from_url_first s q = some sub) :
    sub.contest_id ≠ [] ∧
      (∀ ch ∈ sub.contest_id, netlocCh ch = true ∧ ch ≠ '.') ∧
      sub.problem_id = q := by
  simp only [AtCoderSubmission.from_url_first, normpath] at h
  split at h
  · rename_i hc
    cases hpi : pyInt (posixSplit (posixNormpath (urlparse s).path)).2 with
    | none =>
      rw [hpi] at h
      cases h
    | some sid =>
      rw [hpi] at h
      simp only [Option.some.injEq] at h
      subst h
      refine ⟨hc.2.2.2.1, ?_, rfl⟩
      intro ch hch
      refine ⟨urlparse_netloc_chars s ch (mem_takeWhile_mem _ _ _ hch), ?_⟩
      have := List.mem_takeWhile_imp hch
      simpa using this
  · cases h

theorem submission_reconstruct (cid : Str) (sid : Int) (q : Option Str)
    (hc1 : cid ≠ []) (hc2 : ∀ ch ∈ cid, netlocCh ch = true ∧ ch ≠ '.') :
    AtCoderSubmission.from_url (AtCoderSubmission.get_url ⟨cid, sid, q⟩) q =
      some ⟨cid, sid, q⟩ := by
  have hbf := intToDec_base_facts sid
  have hurl : AtCoderSubmission.get_url ⟨cid, sid, q⟩ =
      "http://".toList ++ ((cid ++ ".contest.atcoder.jp".toList) ++
        '/' :: ("submissions/".toList ++ intToDec sid)) := by
    simp only [AtCoderSubmission.get_url]
    rw [show (".contest.atcoder.jp/submissions/".toList : Str) =
      ".contest.atcoder.jp".toList ++ '/' :: "submissions/".toList from rfl]
    simp [List.append_assoc]
  have hup := urlparse_http (cid ++ ".contest.atcoder.jp".toList)
      ("submissions/".toList ++ intToDec sid)
      (by
        intro ch hch
        rcases List.mem_append.1 hch with hch2 | hch2
        · exact (hc2 ch hch2).1
        · exact (by decide : ∀ c ∈ (".contest.atcoder.jp".toList : Str),
            netlocCh c = true) ch hch2)
      (by
        intro ch hch
        rcases List.mem_append.1 hch with hch2 | hch2
        · exact (by decide : ∀ c ∈ ("submissions/".toList : Str),
            c ≠ '#' ∧ c ≠ '?') ch hch2
        · exact ⟨(hbf.2.2.2 ch hch2).2.1, (hbf.2.2.2 ch hch2).2.2⟩)
  have htw : (cid ++ ".contest.atcoder.jp".toList).takeWhile (· ≠ '.') = cid := by
    rw [takeWhile_append_all _ _ _ (fun c hc => by simp [(hc2 c hc).2])]
    rw [show (".contest.atcoder.jp".toList : Str) =
      '.' :: "contest.atcoder.jp".toList from rfl]
    rw [takeWhile_cons_neg _ _ _ (by decide)]
    simp
  have hcount : (cid ++ ".contest.atcoder.jp".toList).count '.' = 3 := by
    rw [List.count_append]
    have hc0 : cid.count '.' = 0 :=
      List.count_eq_zero.2 (fun hmem => (hc2 '.' hmem).2 rfl)
    rw [hc0]
    decide
  have key : ∀ u : Str, urlparse u =
      ⟨"http".toList, cid ++ ".contest.atcoder.jp".toList,
        '/' :: ("submissions/".toList ++ intToDec sid), [], []⟩ →
      AtCoderSubmission.from_url_first u q = some ⟨cid, sid, q⟩ := by
    intro u hu
    simp only [AtCoderSubmission.from_url_first, normpath]
    rw [hu]
    simp only
    rw [show ('/' :: ("submissions/".toList ++ intToDec sid) : Str) =
      '/' :: "submissions".toList ++ '/' :: intToDec sid from rfl]
    rw [posixNormpath_abs "submissions".toList (intToDec sid) (by decide)
      (by decide) (by decide) (by decide) hbf.1 hbf.2.1 hbf.2.2.1
      (fun ch hch => (hbf.2.2.2 ch hch).1)]
    rw [posixSplit_abs "submissions".toList (intToDec sid) (by decide) (by decide)
      (fun ch hch => (hbf.2.2.2 ch hch).1)]
    simp only
    rw [htw]
    rw [if_pos ⟨Or.inr (Or.inl trivial), hcount, endsWithStr_append _ _, hc1,
      rfl⟩]
    rw [pyInt_intToDec]
  have hfirst := key _ hup
  rw [hurl]
  simp only [AtCoderSubmission.from_url, hfirst]

theorem matchYuki_no (n : Nat) :
    matchYukiProblemUrl ("https://yukicoder.me/problems/no/".toList ++ natToDec n)
      = some (true, natToDec n) := by
  simp only [matchYukiProblemUrl]
  rw [if_pos (show startsWithStr ("https://yukicoder.me/problems/no/".toList ++
      natToDec n) "http".toList = true from
    startsWithStr_prefix "http".toList
      ("s://yukicoder.me/problems/no/".toList ++ natToDec n))]
  rw [show List.drop 4 ("https://yukicoder.me/problems/no/".toList ++ natToDec n)
    = "s://yukicoder.me/problems/no/".toList ++ natToDec n from rfl]
  rw [if_pos (show startsWithStr ("s://yukicoder.me/problems/no/".toList ++
      natToDec n) "s".toList = true from
    startsWithStr_prefix "s".toList
      ("://yukicoder.me/problems/no/".toList ++ natToDec n))]
  rw [show List.drop 1 ("s://yukicoder.me/problems/no/".toList ++ natToDec n)
    = "://yukicoder.me/problems/no/".toList ++ natToDec n from rfl]
  rw [if_pos (show startsWithStr ("://yukicoder.me/problems/no/".toList ++
      natToDec n) "://yukicoder.me/problems/".toList = true from
    startsWithStr_prefix "://yukicoder.me/problems/".toList
      ("no/".toList ++ natToDec n))]
  rw [show List.drop ("://yukicoder.me/problems/".toList.length)
      ("://yukicoder.me/problems/no/".toList ++ natToDec n)
    = "no/".toList ++ natToDec n from rfl]
  rw [show startsWithStr ("no/".toList ++ natToDec n) "no/".toList = true from
    startsWithStr_prefix "no/".toList (natToDec n)]
  simp only [eq_self_iff_true, if_true]
  rw [show List.drop 3 ("no/".toList ++ natToDec n) = natToDec n from rfl]
  rw [takeWhile_all isDigitCh (natToDec n) (natToDec_all_digits n)]
  rw [List.drop_length]
  rw [show startsWithStr ([] : Str) "/".toList = false from rfl]
  simp only [Bool.false_eq_true, if_false]
  rw [if_pos ⟨natToDec_ne_nil n, Or.inl trivial⟩]

theorem matchYuki_id (n : Nat) :
    matchYukiProblemUrl ("https://yukicoder.me/problems/".toList ++ natToDec n)
      = some (false, natToDec n) := by
  simp only [matchYukiProblemUrl]
  rw [if_pos (show startsWithStr ("https://yukicoder.me/problems/".toList ++
      natToDec n) "http".toList = true from
    startsWithStr_prefix "http".toList
      ("s://yukicoder.me/problems/".toList ++ natToDec n))]
  rw [show List.drop 4 ("https://yukicoder.me/problems/".toList ++ natToDec n)
    = "s://yukicoder.me/problems/".toList ++ natToDec n from rfl]
  rw [if_pos (show startsWithStr ("s://yukicoder.me/problems/".toList ++
      natToDec n) "s".toList = true from
    startsWithStr_prefix "s".toList
      ("://yukicoder.me/problems/".toList ++ natToDec n))]
  rw [show List.drop 1 ("s://yukicoder.me/problems/".toList ++ natToDec n)
    = "://yukicoder.me/problems/".toList ++ natToDec n from rfl]
  rw [if_pos (show startsWithStr ("://yukicoder.me/problems/".toList ++
      natToDec n) "://yukicoder.me/problems/".toList = true from
    startsWithStr_prefix "://yukicoder.me/problems/".toList (natToDec n))]
  rw [show List.drop ("://yukicoder.me/problems/".toList.length)
      ("://yukicoder.me/problems/".toList ++ natToDec n)
    = natToDec n from drop_prefix_length _ _]
  rw [natToDec_not_no n]
  simp only [Bool.false_eq_true, if_false]
  rw [takeWhile_all isDigitCh (natToDec n) (natToDec_all_digits n)]
  rw [List.drop_length]
  rw [show startsWithStr ([] : Str) "/".toList = false from rfl]
  simp only [Bool.false_eq_true, if_false]
  rw [if_pos ⟨natToDec_ne_nil n, Or.inl trivial⟩]

theorem yuki_from_url_no (n : Nat) (hn : n ≠ 0) :
    Yukicoder.from_url ("https://yukicoder.me/problems/no/".toList ++ natToDec n)
      = Except.ok (some ⟨some n, none⟩) := by
  have hstr : (natToDec n).dropWhile (· = '0') ≠ [] := by
    intro hcon
    have hv := decVal_dropZeros (natToDec n)
    rw [hcon, decVal_natToDec] at hv
    exact hn (hv.symm.trans rfl)
  simp only [Yukicoder.from_url]
  rw [matchYuki_no n]
  simp only [eq_self_iff_true, if_true]
  rw [if_neg hstr, decVal_dropZeros, decVal_natToDec]
  simp only [Yukicoder.make]
  rw [if_pos (show (truthyNat (some n) || truthyNat none) = true from by
    simp [truthyNat, hn])]

theorem yuki_from_url_id (n : Nat) (hn : n ≠ 0) :
    Yukicoder.from_url ("https://yukicoder.me/problems/".toList ++ natToDec n)
      = Except.ok (some ⟨none, some n⟩) := by
  have hstr : (natToDec n).dropWhile (· = '0') ≠ [] := by
    intro hcon
    have hv := decVal_dropZeros (natToDec n)
    rw [hcon, decVal_natToDec] at hv
    exact hn (hv.symm.trans rfl)
  simp only [Yukicoder.from_url]
  rw [matchYuki_id n]
  simp only [Bool.false_eq_true, if_false]
  rw [if_neg hstr, decVal_dropZeros, decVal_natToDec]
  simp only [Yukicoder.make]
  rw [if_pos (show (truthyNat none || truthyNat (some n)) = true from by
    simp [truthyNat, hn])]

theorem yuki_extract (s : Str) (y : Yukicoder)
    (h : Yukicoder.from_url s = Except.ok (some y)) :
    (∃ n : Nat, n ≠ 0 ∧ y = ⟨some n, none⟩) ∨
      (∃ n : Nat, n ≠ 0 ∧ y = ⟨none, some n⟩) := by
  simp only [Yukicoder.from_url] at h
  cases hm : matchYukiProblemUrl s with
  | none =>
    rw [hm] at h
    cases h
  | some pr =>
    obtain ⟨hasNo, ds⟩ := pr
    rw [hm] at h
    simp only at h
    cases hasNo with
    | true =>
      simp only [eq_self_iff_true, if_true] at h
      cases hmk : Yukicoder.make (some (decVal
          (if ds.dropWhile (· = '0') = [] then ['0']
            else ds.dropWhile (· = '0')))) none with
      | ok y2 =>
        rw [hmk] at h
        simp only [Except.ok.injEq, Option.some.injEq] at h
        subst h
        simp only [Yukicoder.make] at hmk
        by_cases hc : (truthyNat (some (decVal
            (if ds.dropWhile (· = '0') = [] then ['0']
              else ds.dropWhile (· = '0')))) || truthyNat none) = true
        · rw [if_pos hc] at hmk
          simp only [Except.ok.injEq] at hmk
          subst hmk
          left
          refine ⟨_, ?_, rfl⟩
          simp only [truthyNat, Bool.or_false, decide_eq_true_eq] at hc
          exact hc
        · rw [if_neg hc] at hmk
          cases hmk
      | error e =>
        rw [hmk] at h
        simp at h
    | false =>
      simp only [Bool.false_eq_true, if_false] at h
      cases hmk : Yukicoder.make none (some (decVal
          (if ds.dropWhile (· = '0') = [] then ['0']
            else ds.dropWhile (· = '0')))) with
      | ok y2 =>
        rw [hmk] at h
        simp only [Except.ok.injEq, Option.some.injEq] at h
        subst h
        simp only [Yukicoder.make] at hmk
        by_cases hc : (truthyNat none || truthyNat (some (decVal
            (if ds.dropWhile (· = '0') = [] then ['0']
              else ds.dropWhile (· = '0'))))) = true
        · rw [if_pos hc] at hmk
          simp only [Except.ok.injEq] at hmk
          subst hmk
          right
          refine ⟨_, ?_, rfl⟩
          simp only [truthyNat, Bool.false_or, decide_eq_true_eq] at hc
          exact hc
        · rw [if_neg hc] at hmk
          cases hmk
      | error e =>
        rw [hmk] at h
        simp at h

/-- C7: for every entity (AtCoder service, AtCoder problem, AtCoder submission,
Yukicoder problem) constructed by a recognizer from an accepted URL, applying
that entity kind's `from_url` to the entity's `get_url()` result succeeds and
yields an entity equal to the original (same identity fields; for a submission
the optional associated problem id is passed through unchanged, and for a
Yukicoder problem `get_url` itself succeeds because a recognized entity always
has a nonzero number). -/
theorem recognizer_roundtrip :
    (∀ (s : Str) (svc : AtCoderService), AtCoderService.from_url s = some svc →
      AtCoderService.from_url svc.get_url = some svc) ∧
    (∀ (s : Str) (p : AtCoderProblem), AtCoderProblem.from_url s = some p →
      AtCoderProblem.from_url p.get_url = some p) ∧
    (∀ (s : Str) (q : Option Str) (sub : AtCoderSubmission),
      AtCoderSubmission.from_url s q = some sub →
      AtCoderSubmission.from_url sub.get_url sub.problem_id = some sub) ∧
    (∀ (s : Str) (y : Yukicoder), Yukicoder.from_url s = Except.ok (some y) →
      ∃ u, Yukicoder.get_url y = Except.ok u ∧
        Yukicoder.from_url u = Except.ok (some y)) := by
  refine ⟨?_, ?_, ?_, ?_⟩
  · intro s svc h
    cases svc
    rfl
  · intro s p hfu
    obtain ⟨cid, pid⟩ := p
    cases hf : AtCoderProblem.from_url_first s with
    | some p2 =>
      have h2 : some p2 = some ⟨cid, pid⟩ := by
        unfold AtCoderProblem.from_url at hfu
        rw [hf] at hfu
        exact hfu
      have h3 : AtCoderProblem.from_url_first s = some ⟨cid, pid⟩ := by
        rw [hf]
        exact h2
      have hx := problem_first_extract s ⟨cid, pid⟩ h3
      exact problem_reconstruct cid pid hx.1 hx.2.1 hx.2.2.1 hx.2.2.2.1
        hx.2.2.2.2.1 hx.2.2.2.2.2
    | none =>
      have h2 : AtCoderProblem.from_url_second s = some ⟨cid, pid⟩ := by
        unfold AtCoderProblem.from_url at hfu
        rw [hf] at hfu
        exact hfu
      simp only [AtCoderProblem.from_url_second] at h2
      cases hm : matchContestsTasks (normpath (urlparse s).path) with
      | none =>
        rw [hm] at h2
        cases h2
      | some pr =>
        obtain ⟨cid2, pid2⟩ := pr
        rw [hm] at h2
        simp only at h2
        split at h2
        · simp only [Option.some.injEq, AtCoderProblem.mk.injEq] at h2
          obtain ⟨hcide, hpide⟩ := h2
          subst hcide
          subst hpide
          have hx := matchContestsTasks_extract _ _ _ hm
          refine problem_reconstruct cid2 pid2 hx.1 ?_ hx.2.2.1 ?_ ?_ ?_
          · intro ch hch
            have hw := isWordCh_facts ch (hx.2.1 ch hch)
            exact ⟨hw.2.2.2.2, hw.1⟩
          · intro hcon
            have hdot : ('.' : Char) ∈ pid2 := by
              rw [hcon]
              simp
            exact (isWordCh_facts '.' (hx.2.2.2 '.' hdot)).1 rfl
          · intro hcon
            have hdot : ('.' : Char) ∈ pid2 := by
              rw [hcon]
              simp
            exact (isWordCh_facts '.' (hx.2.2.2 '.' hdot)).1 rfl
          · intro ch hch
            have hw := isWordCh_facts ch (hx.2.2.2 ch hch)
            exact ⟨hw.2.1, hw.2.2.2.1, hw.2.2.1⟩
        · cases h2
  · intro s q sub hfu
    have hf := submission_from_url_eq_first s q sub hfu
    have hx := submission_first_extract s q sub hf
    obtain ⟨cid, sid, subpid⟩ := sub
    have hpq : subpid = q := hx.2.2
    subst hpq
    exact submission_reconstruct cid sid subpid hx.1 hx.2.1
  · intro s y h
    rcases yuki_extract s y h with ⟨n, hn, rfl⟩ | ⟨n, hn, rfl⟩
    · refine ⟨"https://yukicoder.me/problems/no/".toList ++ natToDec n, ?_, ?_⟩
      · simp only [Yukicoder.get_url]
        rw [if_pos (show truthyNat (some n) = true from by simp [truthyNat, hn])]
        rfl
      · exact yuki_from_url_no n hn
    · refine ⟨"https://yukicoder.me/problems/".toList ++ natToDec n, ?_, ?_⟩
      · simp only [Yukicoder.get_url]
        rw [if_neg (show ¬ truthyNat none = true from by simp [truthyNat])]
        rw [if_pos (show truthyNat (some n) = true from by simp [truthyNat, hn])]
        rfl
      · exact yuki_from_url_id n hn

theorem recognizer_roundtrip_witness :
    (AtCoderService.from_url (AtCoderService.get_url ⟨⟩) = some ⟨⟩) ∧
    (AtCoderProblem.from_url
      (AtCoderProblem.get_url ⟨"abc123".toList, "abc123_a".toList⟩) =
      some ⟨"abc123".toList, "abc123_a".toList⟩) ∧
    (AtCoderSubmission.from_url
      (AtCoderSubmission.get_url ⟨"abc123".toList, 4095, none⟩) none =
      some ⟨"abc123".toList, 4095, none⟩) ∧
    (∃ u, Yukicoder.get_url ⟨some 9, none⟩ = Except.ok u ∧
      Yukicoder.from_url u = Except.ok (some ⟨some 9, none⟩)) :=
  ⟨recognizer_roundtrip.1 "https://atcoder.jp/".toList ⟨⟩ (by rfl),
   recognizer_roundtrip.2.1
     "https://atcoder.jp/contests/abc123/tasks/abc123_a".toList
     ⟨"abc123".toList, "abc123_a".toList⟩ (by rfl),
   recognizer_roundtrip.2.2.1
     "http://abc123.contest.atcoder.jp/submissions/4095".toList none
     ⟨"abc123".toList, 4095, none⟩ (by rfl),
   recognizer_roundtrip.2.2.2 "https://yukicoder.me/problems/no/9".toList
     ⟨some 9, none⟩ (by rfl)⟩
